import Mathlib

/-!
# Sound processor (`main.cpp`): transforms and script interpreter

Shallow embedding of `Converter` (`applyMute`, `applyMix`, `applySpeedUp`) and of
`SoundProcessor::processConfigFile`.

Modelling conventions.

* `std::vector<double>` is `List ℚ`: a `double` is a rational, and the arithmetic on the
  samples is exact (no rounding, no NaN, no infinity).  The quotient
  `input1.size() / speedFactor`, which decides the element count and the loop bound of
  `applySpeedUp`, and the numerals read by `operator>>` are rounded to the nearest
  `double` (`roundDouble`) where the call as a whole is modelled (`applySpeedUpChecked`).
* A C++ `int` is an `Int`.  The `int` arithmetic on values that come from the script
  (`seconds * sample_rate`, `inputIndex - 2`) is wrapped to 32 bits by `toInt32`, as
  two's-complement hardware does, and the extractions clamp or reject numerals that do
  not fit an `int`, as the library does.
* Buffers are assumed to hold fewer than `2^31` frames, so the `int frame` loop
  counters and the element counts of the buffers are not wrapped.
* Reading a vector past its end is undefined behaviour in C++.  The model makes the
  value found there a parameter `past : Nat → ℚ`, so every theorem holds whatever such
  a read returns.
* Writing a vector past its end is undefined behaviour too.  `applySpeedUp` describes the
  buffer that the loop computes, a write past the allocation leaving the vector as it is
  (`List.set` out of range); `applySpeedUpChecked` describes the call as a whole and
  answers `undefinedBehaviour` as soon as such a write happens.
-/

namespace SoundProcessor

/-! ## Constants and machine integers -/

/-- The constant `sample_rate` (main.cpp:9). -/
def sample_rate : Int := 44100

/-- Value of a 32-bit `int` computation: two's-complement wrap into `[-2^31, 2^31)`. -/
def toInt32 (x : Int) : Int := (x + 2147483648) % 4294967296 - 2147483648

/-- The frame index `static_cast<int>(seconds * sample_rate)` of main.cpp:107, 108, 122;
both operands are `int`, so the product is a 32-bit `int` product. -/
def frameOf (seconds : Int) : Int := toInt32 (seconds * sample_rate)

/-- The conversion `static_cast<int>(x)` of a `double`: truncation toward zero. -/
def truncToInt (x : ℚ) : Int := if 0 ≤ x then ⌊x⌋ else ⌈x⌉

/-- The read `buffer[i]`: the element when `i` is inside the vector, otherwise whatever
lies past its end. -/
def readAt (past : Nat → ℚ) (buffer : List ℚ) (i : Nat) : ℚ :=
  match buffer[i]? with
  | some x => x
  | none => past i

/-! ## Failures -/

/-- How the processing of a script stops short of `saveAudioFile`. -/
inductive Failure where
  /-- A `ConfigFileException` is thrown (main.cpp:182, 214, 222); the handler of
  main.cpp:228-231 prints it and calls `exit(1)`. -/
  | configError
  /-- An exception that is not a `SoundProcessorException` is thrown (`std::stoi`, the
  constructor of `std::vector`); no handler catches it and the process is terminated. -/
  | uncaught
  /-- The program reads an uninitialised variable, indexes `input_samples` out of range,
  converts a `double` that fits no `int`, or writes a vector past its end: undefined
  behaviour, about which the model says nothing further. -/
  | undefinedBehaviour
deriving DecidableEq, Repr

deriving instance DecidableEq for Except

/-! ## Converter -/

/-- One iteration of the loop of `applyMute` (main.cpp:111-113). -/
def muteStep (startFrame endFrame : Int) (buffer : List ℚ) (frame : Nat) : List ℚ :=
  if startFrame ≤ (frame : Int) ∧ (frame : Int) < endFrame then buffer.set frame 0 else buffer

/-- The function `Converter::applyMute` (main.cpp:104-116). -/
def applyMute (input1 : List ℚ) (start end_ : Int) : List ℚ :=
  let startFrame := frameOf start
  let endFrame := frameOf end_
  (List.range input1.length).foldl (muteStep startFrame endFrame) input1

/-- One iteration of the loop of `applyMix` (main.cpp:131-133): the conditional `+=`
followed by the unconditional `/= 2`. -/
def mixStep (past : Nat → ℚ) (startFrame : Int) (buffer2 : List ℚ)
    (buffer1 : List ℚ) (frame : Nat) : List ℚ :=
  let added :=
    if startFrame ≤ (frame : Int) then
      buffer1.set frame (readAt past buffer1 frame + readAt past buffer2 frame)
    else buffer1
  added.set frame (readAt past added frame / 2)

/-- The function `Converter::applyMix` (main.cpp:119-137). -/
def applyMix (past : Nat → ℚ) (input1 input2 : List ℚ) (position : Int) : List ℚ :=
  let startFrame := frameOf position
  (List.range input1.length).foldl (mixStep past startFrame input2) input1

/-- The value stored in `outputBuffer[frame]` (main.cpp:152-156).  For `speedFactor > 0`
the time `t` and the index `intT` are not negative. -/
def speedUpSample (past : Nat → ℚ) (buffer : List ℚ) (speedFactor : ℚ) (frame : Nat) : ℚ :=
  let t : ℚ := (frame : ℚ) * speedFactor
  let intT : Int := truncToInt t
  let fraction : ℚ := t - (intT : ℚ)
  (1 - fraction) * readAt past buffer intT.toNat
    + fraction * readAt past buffer (intT + 1).toNat

/-- The loop of `applySpeedUp` (main.cpp:151-157) in exact arithmetic, with `fuel` bounding
the number of iterations: it runs while `frame < input1.size() / speedFactor`.  A write
past the allocation leaves `outputBuffer` as it is; `speedUpLoopChecked` is the loop in
which such a write is undefined behaviour. -/
def speedUpLoop (past : Nat → ℚ) (buffer : List ℚ) (speedFactor : ℚ) :
    Nat → Nat → List ℚ → List ℚ
  | 0, _, outputBuffer => outputBuffer
  | fuel + 1, frame, outputBuffer =>
    if (frame : ℚ) < (buffer.length : ℚ) / speedFactor then
      speedUpLoop past buffer speedFactor fuel (frame + 1)
        (outputBuffer.set frame (speedUpSample past buffer speedFactor frame))
    else outputBuffer

/-- Number of iterations that is always enough for the loop of `applySpeedUp`: the loop
condition `frame < size / speedFactor` fails at the latest at frame
`static_cast<int>(size / speedFactor) + 1`. -/
def speedUpFuel (size : Nat) (speedFactor : ℚ) : Nat :=
  (truncToInt ((size : ℚ) / speedFactor)).toNat + 2

/-- The buffer that `Converter::applySpeedUp` computes (main.cpp:142-159) in exact
arithmetic, for `speedFactor > 0`: the element count is the integer part of the exact
quotient, and a write past the allocation leaves the vector as it is.  Whether the call
returns at all, and with which element count in `double` arithmetic, is
`applySpeedUpChecked`. -/
def applySpeedUp (past : Nat → ℚ) (input1 : List ℚ) (speedFactor : ℚ) : List ℚ :=
  let outputBuffer : List ℚ :=
    List.replicate (truncToInt ((input1.length : ℚ) / speedFactor)).toNat 0
  speedUpLoop past input1 speedFactor (speedUpFuel input1.length speedFactor) 0 outputBuffer

/-- Rounding to the nearest integer, a tie going to the even one. -/
def roundHalfEven (m : ℚ) : Int :=
  if m - (⌊m⌋ : ℚ) < 1 / 2 then ⌊m⌋
  else if 1 / 2 < m - (⌊m⌋ : ℚ) then ⌊m⌋ + 1
  else if ⌊m⌋ % 2 = 0 then ⌊m⌋ else ⌊m⌋ + 1

/-- The `double` nearest to the real number `x`: IEEE 754 binary64 rounding to nearest,
ties to even, on a significand of 53 bits.  The exponent range is not modelled (no
overflow to infinity, no subnormal numbers). -/
def roundDouble (x : ℚ) : ℚ :=
  if x = 0 then 0
  else (roundHalfEven (x / (2 : ℚ) ^ (Int.log 2 |x| - 52)) : ℚ) * (2 : ℚ) ^ (Int.log 2 |x| - 52)

/-- The `double` quotient `input1.size() / speedFactor` of main.cpp:149 and main.cpp:151. -/
def speedUpQuotient (size : Nat) (speedFactor : ℚ) : ℚ :=
  roundDouble ((size : ℚ) / speedFactor)

/-- The loop of `applySpeedUp` (main.cpp:151-157) with the `double` bound `quotient`: the
assignment to `outputBuffer[frame]` is undefined behaviour when `frame` is not inside the
allocation.  The loop ends at the latest at frame `outputBuffer.size()`, so a `fuel` of
`outputBuffer.size() + 1` is always enough. -/
def speedUpLoopChecked (past : Nat → ℚ) (buffer : List ℚ) (speedFactor quotient : ℚ) :
    Nat → Nat → List ℚ → Except Failure (List ℚ)
  | 0, _, outputBuffer => Except.ok outputBuffer
  | fuel + 1, frame, outputBuffer =>
    if (frame : ℚ) < quotient then
      if frame < outputBuffer.length then
        speedUpLoopChecked past buffer speedFactor quotient fuel (frame + 1)
          (outputBuffer.set frame (speedUpSample past buffer speedFactor frame))
      else Except.error Failure.undefinedBehaviour
    else Except.ok outputBuffer

/-- The call `applySpeedUp(input1, speedFactor)` as a whole (main.cpp:142-159).  A factor
`0` gives an infinite or NaN quotient, and a quotient whose integer part does not fit an
`int` cannot be converted: undefined behaviour.  A negative element count is rejected by
the constructor of `std::vector` (`std::length_error`, which nothing catches).  Otherwise
the vector is allocated with `static_cast<int>(quotient)` elements and the loop runs. -/
def applySpeedUpChecked (past : Nat → ℚ) (input1 : List ℚ) (speedFactor : ℚ) :
    Except Failure (List ℚ) :=
  if speedFactor = 0 then Except.error Failure.undefinedBehaviour
  else
    let quotient := speedUpQuotient input1.length speedFactor
    let count : Int := truncToInt quotient
    if count < -2147483648 ∨ 2147483647 < count then Except.error Failure.undefinedBehaviour
    else if count < 0 then Except.error Failure.uncaught
    else
      speedUpLoopChecked past input1 speedFactor quotient (count.toNat + 1) 0
        (List.replicate count.toNat 0)

/-! ## Input streams

`std::istringstream` and the extractions `operator>>` that `processConfigFile` uses, as
libstdc++ implements them in the "C" locale.  A stream is the text not yet consumed
together with its `eofbit` and `failbit`. -/

/-- The classification `std::isspace` in the "C" locale. -/
def isspace (c : Char) : Bool :=
  c = ' ' || c = '\t' || c = '\n' || c = '\x0b' || c = '\x0c' || c = '\r'

/-- The classification `std::isdigit`. -/
def isdigit (c : Char) : Bool := 48 ≤ c.toNat && c.toNat ≤ 57

/-- Value of a decimal digit string, most significant digit first. -/
def digitsVal (ds : List Char) : Nat := ds.foldl (fun acc c => 10 * acc + (c.toNat - 48)) 0

/-- State of a `std::istringstream`. -/
structure IStream where
  /-- Characters not yet consumed. -/
  rest : List Char
  /-- The flag `eofbit`. -/
  eofbit : Bool
  /-- The flag `failbit`. -/
  failbit : Bool
deriving DecidableEq, Repr

/-- The construction `std::istringstream iss(line)` (main.cpp:194). -/
def IStream.ofLine (line : List Char) : IStream := IStream.mk line false false

/-- The `sentry` run by every formatted extraction: it fails (and sets `failbit`) when the
stream is not `good()`, otherwise it skips whitespace and fails with `eofbit | failbit`
when nothing is left. -/
def sentry (s : IStream) : Bool × IStream :=
  if s.eofbit || s.failbit then (false, IStream.mk s.rest s.eofbit true)
  else
    match s.rest.dropWhile isspace with
    | [] => (false, IStream.mk [] true true)
    | c :: r => (true, IStream.mk (c :: r) false false)

/-- The extraction `iss >> str` into a `std::string` that is empty beforehand (`command`,
main.cpp:195-196, and `inputRef`, main.cpp:205-207): the characters up to the next
whitespace; the string stays empty when the sentry fails. -/
def readString (s : IStream) : List Char × IStream :=
  match sentry s with
  | (false, s1) => ([], s1)
  | (true, s1) =>
    let r := s1.rest.dropWhile (fun c => !isspace c)
    (s1.rest.takeWhile (fun c => !isspace c), IStream.mk r r.isEmpty false)

/-- An optional sign in front of a number: whether it is `-`, and the text after it. -/
def readSign (r : List Char) : Bool × List Char :=
  match r with
  | '-' :: r1 => (true, r1)
  | '+' :: r1 => (false, r1)
  | _ => (false, r)

/-- The extraction `iss >> n` into an `int`.  The result is `none` when the sentry fails:
the variable is then not written at all.  Otherwise a value is stored: `0` with `failbit`
when no digit is found, the nearest `int` bound with `failbit` when the numeral does not
fit an `int`, and the value of the numeral otherwise. -/
def readInt (s : IStream) : Option Int × IStream :=
  match sentry s with
  | (false, s1) => (none, s1)
  | (true, s1) =>
    let sg := readSign s1.rest
    let ds := sg.2.takeWhile isdigit
    let r := sg.2.dropWhile isdigit
    if ds.isEmpty then (some 0, IStream.mk r r.isEmpty true)
    else
      let v : Int := if sg.1 then -(digitsVal ds : Int) else (digitsVal ds : Int)
      if v < -2147483648 then (some (-2147483648), IStream.mk r r.isEmpty true)
      else if 2147483647 < v then (some 2147483647, IStream.mk r r.isEmpty true)
      else (some v, IStream.mk r r.isEmpty false)

/-- The exponent part of a floating-point numeral, read only after a mantissa digit:
`e` or `E`, an optional sign and digits.  The result is `none` when there is no exponent
marker; otherwise the sign, the digits (possibly none) and the text after them. -/
def readExponent (r : List Char) : Option (Bool × List Char × List Char) :=
  match r with
  | c :: r1 =>
    if c = 'e' || c = 'E' then
      let sg := readSign r1
      some (sg.1, sg.2.takeWhile isdigit, sg.2.dropWhile isdigit)
    else none
  | [] => none

/-- The extraction `iss >> x` into a `double` (main.cpp:218): sign, digits with at most one
decimal point, and an exponent.  The result is `none` when the sentry fails; `0` is stored
with `failbit` when the text read is not a complete numeral; otherwise the `double`
nearest to the numeral is stored. -/
def readDouble (s : IStream) : Option ℚ × IStream :=
  match sentry s with
  | (false, s1) => (none, s1)
  | (true, s1) =>
    let sg := readSign s1.rest
    let di := sg.2.takeWhile isdigit
    let r1 := sg.2.dropWhile isdigit
    let point : Bool := r1.head? = some '.'
    let df := if point then (r1.drop 1).takeWhile isdigit else []
    let r2 := if point then (r1.drop 1).dropWhile isdigit else r1
    let mantissa : ℚ := (digitsVal di : ℚ) + (digitsVal df : ℚ) / (10 : ℚ) ^ df.length
    let signed : ℚ := if sg.1 then -mantissa else mantissa
    if di.isEmpty && df.isEmpty then (some 0, IStream.mk r2 r2.isEmpty true)
    else
      match readExponent r2 with
      | none => (some (roundDouble signed), IStream.mk r2 r2.isEmpty false)
      | some (eneg, de, r3) =>
        if de.isEmpty then (some 0, IStream.mk r3 r3.isEmpty true)
        else if eneg then
          (some (roundDouble (signed / (10 : ℚ) ^ digitsVal de)), IStream.mk r3 r3.isEmpty false)
        else
          (some (roundDouble (signed * (10 : ℚ) ^ digitsVal de)), IStream.mk r3 r3.isEmpty false)

/-- The conversion `std::stoi(str)`: leading whitespace, an optional sign and digits, what
follows being ignored.  The result is `none` when it throws, `std::invalid_argument`
without a digit and `std::out_of_range` when the value does not fit an `int`. -/
def stoi (str : List Char) : Option Int :=
  let sg := readSign (str.dropWhile isspace)
  let ds := sg.2.takeWhile isdigit
  if ds.isEmpty then none
  else
    let v : Int := if sg.1 then -(digitsVal ds : Int) else (digitsVal ds : Int)
    if v < -2147483648 ∨ 2147483647 < v then none else some v

/-! ## SoundProcessor::processConfigFile -/

/-- The command word `mute` (main.cpp:198). -/
def muteCommand : List Char := ['m', 'u', 't', 'e']

/-- The command word `mix` (main.cpp:204). -/
def mixCommand : List Char := ['m', 'i', 'x']

/-- The command word `speed_up` (main.cpp:216). -/
def speedUpCommand : List Char := ['s', 'p', 'e', 'e', 'd', '_', 'u', 'p']

/-- The test `line.empty() || line[0] == '#'` (main.cpp:190). -/
def skipped (line : List Char) : Bool := line.isEmpty || line.head? = some '#'

/-- The branch `command == "mute"` (main.cpp:199-203). -/
def runMute (main_sample : List ℚ) (iss : IStream) : Except Failure (List ℚ) :=
  let r1 := readInt iss
  let r2 := readInt r1.2
  match r1.1, r2.1 with
  | some start, some end_ => Except.ok (applyMute main_sample start end_)
  | _, _ => Except.error Failure.undefinedBehaviour

/-- The branch `command == "mix"` (main.cpp:205-215). -/
def runMix (past : Nat → ℚ) (input_samples : List (List ℚ)) (main_sample : List ℚ)
    (iss : IStream) : Except Failure (List ℚ) :=
  let r1 := readString iss
  let r2 := readInt r1.2
  let inputRef := r1.1
  if inputRef.head? = some '$' then
    match stoi (inputRef.drop 1) with
    | none => Except.error Failure.uncaught
    | some inputIndex =>
      match r2.1 with
      | none => Except.error Failure.undefinedBehaviour
      | some startTime =>
        let index : Int := toInt32 (inputIndex - 2)
        match (if 0 ≤ index then input_samples[index.toNat]? else none) with
        | some input2 => Except.ok (applyMix past main_sample input2 startTime)
        | none => Except.error Failure.undefinedBehaviour
  else Except.error Failure.configError

/-- The branch `command == "speed_up"` (main.cpp:217-220): the factor is extracted and
`applySpeedUp` is called; `parameters` is read uninitialised when the sentry fails. -/
def runSpeedUp (past : Nat → ℚ) (main_sample : List ℚ) (iss : IStream) :
    Except Failure (List ℚ) :=
  match (readDouble iss).1 with
  | none => Except.error Failure.undefinedBehaviour
  | some parameters => applySpeedUpChecked past main_sample parameters

/-- The body of the `while` loop of `processConfigFile` (main.cpp:190-223) on one line:
the new `main_sample`, or the way the run stops. -/
def processLine (past : Nat → ℚ) (input_samples : List (List ℚ)) (main_sample : List ℚ)
    (line : List Char) : Except Failure (List ℚ) :=
  if skipped line then Except.ok main_sample
  else
    let r := readString (IStream.ofLine line)
    if r.1 = muteCommand then runMute main_sample r.2
    else if r.1 = mixCommand then runMix past input_samples main_sample r.2
    else if r.1 = speedUpCommand then runSpeedUp past main_sample r.2
    else Except.error Failure.configError

/-- The `while (std::getline(inputFile, line))` loop (main.cpp:189-224): the number of
lines on which the body ran, and the final `main_sample` or the failure that stopped it. -/
def processLines (past : Nat → ℚ) (input_samples : List (List ℚ)) :
    List ℚ → List (List Char) → Nat × Except Failure (List ℚ)
  | main_sample, [] => (0, Except.ok main_sample)
  | main_sample, line :: rest =>
    match processLine past input_samples main_sample line with
    | Except.ok next =>
      ((processLines past input_samples next rest).1 + 1,
        (processLines past input_samples next rest).2)
    | Except.error e => (1, Except.error e)

/-- What a call of `processConfigFile` did. -/
structure Outcome where
  /-- Number of script lines on which the loop body ran. -/
  executed : Nat
  /-- The buffers handed to `saveAudioFile` (main.cpp:227), in call order. -/
  saved : List (List ℚ)
  /-- Normal return, or the failure that ended the run. -/
  result : Except Failure Unit
deriving DecidableEq, Repr

/-- The function `SoundProcessor::processConfigFile` (main.cpp:178-232).  The script is
`none` when the file cannot be opened, otherwise its lines as `std::getline` yields them. -/
def processConfigFile (past : Nat → ℚ) (input_samples : List (List ℚ)) (main_sample : List ℚ)
    (configFile : Option (List (List Char))) : Outcome :=
  match configFile with
  | none => Outcome.mk 0 [] (Except.error Failure.configError)
  | some script =>
    match processLines past input_samples main_sample script with
    | (n, Except.ok final) => Outcome.mk n [final] (Except.ok ())
    | (n, Except.error e) => Outcome.mk n [] (Except.error e)

/-! ## Script lines in decimal notation -/

/-- Decimal numeral of `n`, by at most `fuel` digits. -/
def decimalFuel : Nat → Nat → List Char
  | 0, _ => []
  | fuel + 1, n =>
    if n < 10 then [Char.ofNat (48 + n)]
    else decimalFuel fuel (n / 10) ++ [Char.ofNat (48 + n % 10)]

/-- Decimal numeral of a natural number. -/
def decimal (n : Nat) : List Char := decimalFuel (n + 1) n

/-- Decimal numeral of an integer. -/
def decimalInt (z : Int) : List Char :=
  if z < 0 then '-' :: decimal z.natAbs else decimal z.natAbs

/-- The script line `mix $N offset`. -/
def mixLine (N : Nat) (offset : Int) : List Char :=
  mixCommand ++ [' ', '$'] ++ decimal N ++ [' '] ++ decimalInt offset

/-! ## Indices accessed by the transforms -/

/-- The frames on which the loop of `applySpeedUp` runs its body (main.cpp:151), from
`frame` on and within `fuel` iterations: those with `frame < size / speedFactor`. -/
def speedUpVisited (size : Nat) (speedFactor : ℚ) : Nat → Nat → List Nat
  | 0, _ => []
  | fuel + 1, frame =>
    if (frame : ℚ) < (size : ℚ) / speedFactor then
      frame :: speedUpVisited size speedFactor fuel (frame + 1)
    else []

/-- The indices at which `applySpeedUp` reads `buffer` (main.cpp:156): `intT` and
`intT + 1` for every frame the loop visits, in order. -/
def applySpeedUpReads (input1 : List ℚ) (speedFactor : ℚ) : List Int :=
  (speedUpVisited input1.length speedFactor (speedUpFuel input1.length speedFactor) 0).flatMap
    (fun frame =>
      [truncToInt ((frame : ℚ) * speedFactor), truncToInt ((frame : ℚ) * speedFactor) + 1])

/-- The indices at which `applySpeedUp` writes `outputBuffer` (main.cpp:156): every frame
the loop visits. -/
def applySpeedUpWrites (input1 : List ℚ) (speedFactor : ℚ) : List Nat :=
  speedUpVisited input1.length speedFactor (speedUpFuel input1.length speedFactor) 0

/-- The indices at which `applyMix` reads `buffer2` (main.cpp:131-132): every frame of
`input1` from `startFrame` on. -/
def applyMixReads (input1 : List ℚ) (position : Int) : List Nat :=
  (List.range input1.length).filter (fun frame => decide (frameOf position ≤ (frame : Int)))

/-! ## The data members and `main` -/

/-- The data members of `SoundProcessor` that `processConfigFile` works on
(main.cpp:165, 167). -/
structure Members where
  /-- The member `main_sample`. -/
  main_sample : List ℚ
  /-- The member `input_samples`. -/
  input_samples : List (List ℚ)
deriving DecidableEq, Repr

/-- The loop body (main.cpp:190-223) on the data members: the only member assigned is
`main_sample` (main.cpp:203, 212, 220), and a line that throws assigns nothing. -/
def processLineMembers (past : Nat → ℚ) (m : Members) (line : List Char) :
    Members × Option Failure :=
  match processLine past m.input_samples m.main_sample line with
  | Except.ok next => (Members.mk next m.input_samples, none)
  | Except.error e => (m, some e)

/-- The `while` loop (main.cpp:189-224) on the data members: the members when the loop
ends, and the failure that ended it, if any. -/
def processLinesMembers (past : Nat → ℚ) : Members → List (List Char) → Members × Option Failure
  | m, [] => (m, none)
  | m, line :: rest =>
    match processLineMembers past m line with
    | (next, none) => processLinesMembers past next rest
    | (next, some e) => (next, some e)

/-- What `main` does with its arguments before any file is touched. -/
inductive MainResult where
  /-- The statement `return code` of main.cpp:241 or main.cpp:245. -/
  | exit (code : Nat)
  /-- The test of main.cpp:239 dereferences `argv[1]`, which is the null pointer when the
  program name is the only argument: undefined behaviour. -/
  | undefinedBehaviour
  /-- The arguments are accepted: the files are loaded and the script is processed
  (main.cpp:248-257). -/
  | run (configFile outputFile inputFile : List Char) (inputFiles : List (List Char))
deriving DecidableEq, Repr

/-- The function `main` (main.cpp:238-259) up to the construction of `SoundProcessor`;
`argv` holds the `argc` arguments, the program name first. -/
def main (argv : List (List Char)) : MainResult :=
  match argv[1]? with
  | none => MainResult.undefinedBehaviour
  | some first =>
    if first[0]? = some '-' ∧ first[1]? = some 'h' then MainResult.exit 0
    else if argv.length < 5 then MainResult.exit 1
    else
      match argv[2]?, argv[3]?, argv[4]? with
      | some configFile, some outputFile, some inputFile =>
        MainResult.run configFile outputFile inputFile (argv.drop 5)
      | _, _, _ => MainResult.undefinedBehaviour

/-- The script line `mute 0 0.5`. -/
def muteHalfLine : List Char := ['m', 'u', 't', 'e', ' ', '0', ' ', '0', '.', '5']

/-! ## Lemmas on the transforms -/

theorem frameOf_eq_of_inRange (s : Int) (hlo : -2147483648 ≤ s * 44100)
    (hhi : s * 44100 < 2147483648) : frameOf s = s * 44100 := by
  unfold frameOf toInt32 sample_rate
  have h : (s * 44100 + 2147483648) % 4294967296 = s * 44100 + 2147483648 :=
    Int.emod_eq_of_lt (by omega) (by omega)
  omega

/-- A loop over the frames `0 .. n-1` whose body rewrites only the current frame, as a
function `val frame` of its old content, rewrites exactly the first `n` frames. -/
theorem foldl_range_pointwise (step : List ℚ → Nat → List ℚ) (val : Nat → ℚ → ℚ)
    (hk : ∀ buf k, (step buf k)[k]? = (buf[k]?).map (val k))
    (hj : ∀ buf k j, j ≠ k → (step buf k)[j]? = buf[j]?) :
    ∀ (n : Nat) (buf : List ℚ) (j : Nat),
      ((List.range n).foldl step buf)[j]? = if j < n then (buf[j]?).map (val j) else buf[j]? := by
  intro n
  induction n with
  | zero => intro buf j; simp
  | succ n ih =>
    intro buf j
    rw [List.range_succ, List.foldl_append]
    simp only [List.foldl_cons, List.foldl_nil]
    by_cases hjn : j = n
    · subst hjn
      rw [hk, ih]
      simp
    · rw [hj _ _ _ hjn, ih]
      by_cases hlt : j < n
      · have : j < n + 1 := by omega
        simp [hlt, this]
      · have : ¬ j < n + 1 := by omega
        simp [hlt, this]

theorem foldl_range_length (step : List ℚ → Nat → List ℚ)
    (hlen : ∀ buf k, (step buf k).length = buf.length) :
    ∀ (n : Nat) (buf : List ℚ), ((List.range n).foldl step buf).length = buf.length := by
  intro n
  induction n with
  | zero => intro buf; simp
  | succ n ih =>
    intro buf
    rw [List.range_succ, List.foldl_append]
    simp only [List.foldl_cons, List.foldl_nil]
    rw [hlen, ih]

theorem readAt_of_getElem? {past : Nat → ℚ} {buffer : List ℚ} {i : Nat} {x : ℚ}
    (h : buffer[i]? = some x) : readAt past buffer i = x := by
  simp [readAt, h]

theorem muteStep_length (sf ef : Int) (buf : List ℚ) (k : Nat) :
    (muteStep sf ef buf k).length = buf.length := by
  unfold muteStep; split <;> simp

theorem muteStep_same (sf ef : Int) (buf : List ℚ) (k : Nat) :
    (muteStep sf ef buf k)[k]? =
      (buf[k]?).map (fun x => if sf ≤ (k : Int) ∧ (k : Int) < ef then 0 else x) := by
  unfold muteStep
  by_cases hc : sf ≤ (k : Int) ∧ (k : Int) < ef
  · rw [if_pos hc]
    by_cases hk : k < buf.length
    · simp [hc, hk, List.getElem?_eq_getElem]
    · have hk2 : buf.length ≤ k := Nat.le_of_not_lt hk
      simp [List.getElem?_eq_none hk2, hk2]
  · rw [if_neg hc]
    cases hb : buf[k]? <;> simp [hc]

theorem muteStep_other (sf ef : Int) (buf : List ℚ) (k j : Nat) (h : j ≠ k) :
    (muteStep sf ef buf k)[j]? = buf[j]? := by
  unfold muteStep
  split
  · rw [List.getElem?_set_ne (Ne.symm h)]
  · rfl

theorem applyMute_length (b : List ℚ) (start end_ : Int) :
    (applyMute b start end_).length = b.length :=
  foldl_range_length _ (muteStep_length _ _) _ _

theorem applyMute_getElem? (b : List ℚ) (start end_ : Int) (f : Nat) :
    (applyMute b start end_)[f]? =
      if frameOf start ≤ (f : Int) ∧ (f : Int) < frameOf end_ then (b[f]?).map (fun _ => 0)
      else b[f]? := by
  unfold applyMute
  simp only
  rw [foldl_range_pointwise _ _ (muteStep_same _ _) (muteStep_other _ _)]
  by_cases hf : f < b.length
  · rw [if_pos hf]
    by_cases hc : frameOf start ≤ (f : Int) ∧ (f : Int) < frameOf end_
    · simp [hc, List.getElem?_eq_getElem hf]
    · simp [hc, List.getElem?_eq_getElem hf]
  · rw [if_neg hf]
    simp [List.getElem?_eq_none (Nat.le_of_not_lt hf)]

theorem mixStep_length (past : Nat → ℚ) (sf : Int) (b2 buf : List ℚ) (k : Nat) :
    (mixStep past sf b2 buf k).length = buf.length := by
  unfold mixStep
  by_cases hc : sf ≤ (k : Int) <;> simp [hc]

theorem mixStep_same (past : Nat → ℚ) (sf : Int) (b2 buf : List ℚ) (k : Nat) :
    (mixStep past sf b2 buf k)[k]? =
      (buf[k]?).map (fun x => if sf ≤ (k : Int) then (x + readAt past b2 k) / 2 else x / 2) := by
  unfold mixStep
  by_cases hk : k < buf.length
  · have hx : buf[k]? = some buf[k] := List.getElem?_eq_getElem hk
    by_cases hc : sf ≤ (k : Int)
    · simp [hc, hk, hx, readAt]
    · simp [hc, hk, hx, readAt]
  · have hk2 : buf.length ≤ k := Nat.le_of_not_lt hk
    by_cases hc : sf ≤ (k : Int)
    · simp [hc, List.getElem?_eq_none hk2, hk2]
    · simp [hc, List.getElem?_eq_none hk2, hk2]

theorem mixStep_other (past : Nat → ℚ) (sf : Int) (b2 buf : List ℚ) (k j : Nat)
    (h : j ≠ k) : (mixStep past sf b2 buf k)[j]? = buf[j]? := by
  unfold mixStep
  by_cases hc : sf ≤ (k : Int)
  · simp only [if_pos hc]
    rw [List.getElem?_set_ne (Ne.symm h), List.getElem?_set_ne (Ne.symm h)]
  · simp only [if_neg hc]
    rw [List.getElem?_set_ne (Ne.symm h)]

theorem applyMix_length (past : Nat → ℚ) (p s : List ℚ) (offset : Int) :
    (applyMix past p s offset).length = p.length :=
  foldl_range_length _ (mixStep_length _ _ _) _ _

theorem applyMix_getElem? (past : Nat → ℚ) (p s : List ℚ) (offset : Int) (f : Nat) :
    (applyMix past p s offset)[f]? =
      (p[f]?).map (fun x =>
        if frameOf offset ≤ (f : Int) then (x + readAt past s f) / 2 else x / 2) := by
  unfold applyMix
  simp only
  rw [foldl_range_pointwise _ _ (mixStep_same _ _ _) (mixStep_other _ _ _)]
  by_cases hf : f < p.length
  · rw [if_pos hf]
  · rw [if_neg hf]
    simp [List.getElem?_eq_none (Nat.le_of_not_lt hf)]

theorem truncToInt_of_nonneg {x : ℚ} (h : 0 ≤ x) : truncToInt x = ⌊x⌋ := by
  simp [truncToInt, h]

theorem truncToInt_toNat_of_nonneg {x : ℚ} (h : 0 ≤ x) : (truncToInt x).toNat = ⌊x⌋₊ := by
  rw [truncToInt_of_nonneg h, Int.floor_toNat]

theorem speedUpLoop_length (past : Nat → ℚ) (b : List ℚ) (factor : ℚ) :
    ∀ (fuel frame : Nat) (out : List ℚ),
      (speedUpLoop past b factor fuel frame out).length = out.length := by
  intro fuel
  induction fuel with
  | zero => intro frame out; rfl
  | succ fuel ih =>
    intro frame out
    unfold speedUpLoop
    split
    · rw [ih]; simp
    · rfl

theorem speedUpLoop_getElem? (past : Nat → ℚ) (b : List ℚ) (factor : ℚ) :
    ∀ (fuel frame : Nat) (out : List ℚ) (j : Nat),
      (speedUpLoop past b factor fuel frame out)[j]? =
        if frame ≤ j ∧ j < frame + fuel ∧ (j : ℚ) < (b.length : ℚ) / factor then
          (out[j]?).map (fun _ => speedUpSample past b factor j)
        else out[j]? := by
  intro fuel
  induction fuel with
  | zero =>
    intro frame out j
    have : ¬ (frame ≤ j ∧ j < frame + 0 ∧ (j : ℚ) < (b.length : ℚ) / factor) := by
      intro h; omega
    rw [if_neg this]; rfl
  | succ fuel ih =>
    intro frame out j
    unfold speedUpLoop
    by_cases hc : (frame : ℚ) < (b.length : ℚ) / factor
    · rw [if_pos hc, ih]
      by_cases hjf : j = frame
      · subst hjf
        have h1 : ¬ (j + 1 ≤ j ∧ j < j + 1 + fuel ∧ (j : ℚ) < (b.length : ℚ) / factor) := by
          intro h; omega
        have h2 : j ≤ j ∧ j < j + (fuel + 1) ∧ (j : ℚ) < (b.length : ℚ) / factor :=
          ⟨le_refl _, by omega, hc⟩
        rw [if_neg h1, if_pos h2]
        by_cases hk : j < out.length
        · simp [hk, List.getElem?_eq_getElem hk]
        · have hk2 : out.length ≤ j := Nat.le_of_not_lt hk
          simp [List.getElem?_eq_none hk2, hk2]
      · rw [List.getElem?_set_ne (Ne.symm hjf)]
        by_cases hq : (j : ℚ) < (b.length : ℚ) / factor
        · by_cases hr : frame ≤ j ∧ j < frame + (fuel + 1)
          · have h1 : frame + 1 ≤ j ∧ j < frame + 1 + fuel ∧
                (j : ℚ) < (b.length : ℚ) / factor := ⟨by omega, by omega, hq⟩
            rw [if_pos h1, if_pos ⟨hr.1, hr.2, hq⟩]
          · have h1 : ¬ (frame + 1 ≤ j ∧ j < frame + 1 + fuel ∧
                (j : ℚ) < (b.length : ℚ) / factor) := by
              intro h; exact hr ⟨by omega, by omega⟩
            have h2 : ¬ (frame ≤ j ∧ j < frame + (fuel + 1) ∧
                (j : ℚ) < (b.length : ℚ) / factor) := by
              intro h; exact hr ⟨h.1, h.2.1⟩
            rw [if_neg h1, if_neg h2]
        · have h1 : ¬ (frame + 1 ≤ j ∧ j < frame + 1 + fuel ∧
              (j : ℚ) < (b.length : ℚ) / factor) := fun h => hq h.2.2
          have h2 : ¬ (frame ≤ j ∧ j < frame + (fuel + 1) ∧
              (j : ℚ) < (b.length : ℚ) / factor) := fun h => hq h.2.2
          rw [if_neg h1, if_neg h2]
    · rw [if_neg hc]
      have h2 : ¬ (frame ≤ j ∧ j < frame + (fuel + 1) ∧
          (j : ℚ) < (b.length : ℚ) / factor) := by
        intro h
        apply hc
        have : (frame : ℚ) ≤ (j : ℚ) := by exact_mod_cast h.1
        exact lt_of_le_of_lt this h.2.2
      rw [if_neg h2]

/-- A frame that passes the loop condition is below `static_cast<int>(size / f) + 1`. -/
theorem frame_lt_of_cond {q : ℚ} {j : Nat} (hj : (j : ℚ) < q) : j < ⌊q⌋₊ + 1 := by
  have h1 : j ≤ ⌊q⌋₊ := Nat.le_floor (le_of_lt hj)
  omega

/-- A frame below `static_cast<int>(size / f)` passes the loop condition. -/
theorem cond_of_lt_floor {q : ℚ} {j : Nat} (hj : j < ⌊q⌋₊) : (j : ℚ) < q := by
  have h0 : 0 < ⌊q⌋₊ := by omega
  have hq : 0 ≤ q := le_of_lt (Nat.floor_pos.mp h0 |> lt_of_lt_of_le zero_lt_one)
  have h1 : ((j + 1 : Nat) : ℚ) ≤ q := (Nat.le_floor_iff hq).mp (by omega)
  have h2 : (j : ℚ) < ((j + 1 : Nat) : ℚ) := by push_cast; linarith
  exact lt_of_lt_of_le h2 h1

theorem applySpeedUp_length (past : Nat → ℚ) (b : List ℚ) (factor : ℚ) (hpos : 0 < factor) :
    (applySpeedUp past b factor).length = ⌊(b.length : ℚ) / factor⌋₊ := by
  have hq : 0 ≤ (b.length : ℚ) / factor := div_nonneg (Nat.cast_nonneg _) (le_of_lt hpos)
  unfold applySpeedUp
  simp only
  rw [speedUpLoop_length, List.length_replicate, truncToInt_toNat_of_nonneg hq]

theorem applySpeedUp_getElem?_of_lt (past : Nat → ℚ) (b : List ℚ) (factor : ℚ)
    (hpos : 0 < factor) (i : Nat) (hi : i < ⌊(b.length : ℚ) / factor⌋₊) :
    (applySpeedUp past b factor)[i]? = some (speedUpSample past b factor i) := by
  have hq : 0 ≤ (b.length : ℚ) / factor := div_nonneg (Nat.cast_nonneg _) (le_of_lt hpos)
  unfold applySpeedUp speedUpFuel
  simp only
  rw [speedUpLoop_getElem?, truncToInt_toNat_of_nonneg hq]
  have hc : 0 ≤ i ∧ i < 0 + (⌊(b.length : ℚ) / factor⌋₊ + 2) ∧
      (i : ℚ) < (b.length : ℚ) / factor := ⟨Nat.zero_le _, by omega, cond_of_lt_floor hi⟩
  rw [if_pos hc]
  simp [hi]

/-- The loop of `applySpeedUp` stops on its own condition: any larger iteration budget
gives the same buffer. -/
theorem speedUpLoop_fuel_enough (past : Nat → ℚ) (b : List ℚ) (factor : ℚ) (hpos : 0 < factor)
    (fuel : Nat) (hfuel : speedUpFuel b.length factor ≤ fuel) (out : List ℚ) :
    speedUpLoop past b factor fuel 0 out =
      speedUpLoop past b factor (speedUpFuel b.length factor) 0 out := by
  have hq : 0 ≤ (b.length : ℚ) / factor := div_nonneg (Nat.cast_nonneg _) (le_of_lt hpos)
  have hfuel2 : ⌊(b.length : ℚ) / factor⌋₊ + 2 ≤ fuel := by
    have := hfuel
    unfold speedUpFuel at this
    rwa [truncToInt_toNat_of_nonneg hq] at this
  apply List.ext_getElem?
  intro j
  rw [speedUpLoop_getElem?, speedUpLoop_getElem?]
  unfold speedUpFuel
  rw [truncToInt_toNat_of_nonneg hq]
  by_cases hc : (j : ℚ) < (b.length : ℚ) / factor
  · have hj := frame_lt_of_cond hc
    rw [if_pos ⟨Nat.zero_le _, by omega, hc⟩, if_pos ⟨Nat.zero_le _, by omega, hc⟩]
  · rw [if_neg (fun h => hc h.2.2), if_neg (fun h => hc h.2.2)]

theorem speedUpSample_of_inRange (past : Nat → ℚ) (b : List ℚ) (factor : ℚ) (hpos : 0 < factor)
    (i : Nat) (hin : ⌊(i : ℚ) * factor⌋₊ + 1 < b.length) :
    speedUpSample past b factor i =
      (1 - ((i : ℚ) * factor - (⌊(i : ℚ) * factor⌋₊ : ℚ)))
          * b.get ⟨⌊(i : ℚ) * factor⌋₊, by omega⟩
        + ((i : ℚ) * factor - (⌊(i : ℚ) * factor⌋₊ : ℚ)) * b.get ⟨⌊(i : ℚ) * factor⌋₊ + 1, hin⟩ := by
  have ht : 0 ≤ (i : ℚ) * factor := mul_nonneg (Nat.cast_nonneg _) (le_of_lt hpos)
  have hfl : (⌊(i : ℚ) * factor⌋ : Int) = ((⌊(i : ℚ) * factor⌋₊ : Nat) : Int) :=
    (Int.natCast_floor_eq_floor ht).symm
  unfold speedUpSample
  simp only
  rw [truncToInt_of_nonneg ht, hfl]
  have h1 : (((⌊(i : ℚ) * factor⌋₊ : Nat) : Int) + 1).toNat = ⌊(i : ℚ) * factor⌋₊ + 1 := by
    omega
  rw [Int.toNat_natCast, h1]
  have hr0 : readAt past b ⌊(i : ℚ) * factor⌋₊ = b.get ⟨⌊(i : ℚ) * factor⌋₊, by omega⟩ :=
    readAt_of_getElem? (by simp [List.getElem?_eq_getElem (show ⌊(i : ℚ) * factor⌋₊ < b.length by omega)])
  have hr1 : readAt past b (⌊(i : ℚ) * factor⌋₊ + 1) = b.get ⟨⌊(i : ℚ) * factor⌋₊ + 1, hin⟩ :=
    readAt_of_getElem? (by simp [List.getElem?_eq_getElem hin])
  rw [hr0, hr1]
  simp

/-! ## Lemmas on the stream extractions -/

theorem takeWhile_append_stop (p : Char → Bool) (a b : List Char)
    (ha : ∀ c ∈ a, p c = true) (hb : ∀ c, b.head? = some c → p c = false) :
    (a ++ b).takeWhile p = a := by
  induction a with
  | nil =>
    cases b with
    | nil => rfl
    | cons c r => simp [List.takeWhile_cons, hb c (by simp)]
  | cons x a ih =>
    have hx : p x = true := ha x (by simp)
    simp only [List.cons_append, List.takeWhile_cons, hx, if_true]
    rw [ih (fun c hc => ha c (by simp [hc]))]

theorem dropWhile_append_stop (p : Char → Bool) (a b : List Char)
    (ha : ∀ c ∈ a, p c = true) (hb : ∀ c, b.head? = some c → p c = false) :
    (a ++ b).dropWhile p = b := by
  induction a with
  | nil =>
    cases b with
    | nil => rfl
    | cons c r => simp [List.dropWhile_cons, hb c (by simp)]
  | cons x a ih =>
    have hx : p x = true := ha x (by simp)
    simp only [List.cons_append, List.dropWhile_cons, hx, if_true]
    exact ih (fun c hc => ha c (by simp [hc]))

theorem takeWhile_all (p : Char → Bool) (a : List Char) (ha : ∀ c ∈ a, p c = true) :
    a.takeWhile p = a := by
  have h := takeWhile_append_stop p a [] ha (by simp)
  simpa using h

theorem dropWhile_all (p : Char → Bool) (a : List Char) (ha : ∀ c ∈ a, p c = true) :
    a.dropWhile p = [] := by
  have h := dropWhile_append_stop p a [] ha (by simp)
  simpa using h

theorem isdigit_not_isspace {c : Char} (h : isdigit c = true) : isspace c = false := by
  cases hs : isspace c with
  | false => rfl
  | true =>
    exfalso
    simp only [isspace, Bool.or_eq_true, decide_eq_true_eq] at hs
    rcases hs with ((((rfl | rfl) | rfl) | rfl) | rfl) | rfl <;> revert h <;> decide

theorem isdigit_ne_minus {c : Char} (h : isdigit c = true) : c ≠ '-' := by
  rintro rfl; revert h; decide

theorem isdigit_ne_plus {c : Char} (h : isdigit c = true) : c ≠ '+' := by
  rintro rfl; revert h; decide

theorem readSign_of_digit (c : Char) (r : List Char) (h : isdigit c = true) :
    readSign (c :: r) = (false, c :: r) := by
  have h1 := isdigit_ne_minus h
  have h2 := isdigit_ne_plus h
  unfold readSign
  split
  · rename_i heq; simp at heq; exact absurd heq.1 h1
  · rename_i heq; simp at heq; exact absurd heq.1 h2
  · rfl

theorem digitsVal_append_singleton (ds : List Char) (c : Char) :
    digitsVal (ds ++ [c]) = 10 * digitsVal ds + (c.toNat - 48) := by
  simp [digitsVal, List.foldl_append]

theorem digitChar_toNat (d : Nat) (h : d < 10) : (Char.ofNat (48 + d)).toNat = 48 + d := by
  interval_cases d <;> decide

theorem digitChar_isdigit (d : Nat) (h : d < 10) : isdigit (Char.ofNat (48 + d)) = true := by
  interval_cases d <;> decide

theorem decimalFuel_spec : ∀ (fuel n : Nat), n < fuel →
    (∀ c ∈ decimalFuel fuel n, isdigit c = true) ∧ decimalFuel fuel n ≠ [] ∧
      digitsVal (decimalFuel fuel n) = n := by
  intro fuel
  induction fuel with
  | zero => intro n h; omega
  | succ fuel ih =>
    intro n h
    unfold decimalFuel
    by_cases hn : n < 10
    · rw [if_pos hn]
      refine ⟨?_, by simp, ?_⟩
      · intro c hc
        simp only [List.mem_singleton] at hc
        rw [hc]; exact digitChar_isdigit n hn
      · simp [digitsVal, digitChar_toNat n hn]
    · rw [if_neg hn]
      have hlt : n / 10 < fuel := by omega
      obtain ⟨h1, _, h3⟩ := ih (n / 10) hlt
      have hm : n % 10 < 10 := Nat.mod_lt _ (by decide)
      refine ⟨?_, by simp, ?_⟩
      · intro c hc
        rcases List.mem_append.mp hc with hc | hc
        · exact h1 c hc
        · simp only [List.mem_singleton] at hc
          rw [hc]; exact digitChar_isdigit _ hm
      · rw [digitsVal_append_singleton, h3, digitChar_toNat _ hm]
        omega

theorem decimal_isdigit (n : Nat) : ∀ c ∈ decimal n, isdigit c = true :=
  (decimalFuel_spec (n + 1) n (Nat.lt_succ_self n)).1

theorem decimal_ne_nil (n : Nat) : decimal n ≠ [] :=
  (decimalFuel_spec (n + 1) n (Nat.lt_succ_self n)).2.1

theorem digitsVal_decimal (n : Nat) : digitsVal (decimal n) = n :=
  (decimalFuel_spec (n + 1) n (Nat.lt_succ_self n)).2.2

/-- A non-empty digit string read by `std::stoi`. -/
theorem stoi_digits (ds : List Char) (hne : ds ≠ []) (hd : ∀ c ∈ ds, isdigit c = true)
    (hmax : digitsVal ds ≤ 2147483647) : stoi ds = some (digitsVal ds : Int) := by
  obtain ⟨c, r, rfl⟩ := List.exists_cons_of_ne_nil hne
  have hc : isdigit c = true := hd c (by simp)
  have hdrop : (c :: r).dropWhile isspace = c :: r := by
    simp [List.dropWhile_cons, isdigit_not_isspace hc]
  unfold stoi
  simp only [hdrop, readSign_of_digit c r hc, takeWhile_all isdigit (c :: r) hd]
  have hv : ¬ ((digitsVal (c :: r) : Int) < -2147483648 ∨
      2147483647 < (digitsVal (c :: r) : Int)) := by omega
  simp only [List.isEmpty_cons, Bool.false_eq_true, if_false]
  rw [if_neg hv]

/-- The extraction of an `int` from whitespace followed by the decimal numeral of an
`int` value that ends the line. -/
theorem readInt_decimalInt (z : Int) (hlo : -2147483648 ≤ z) (hhi : z ≤ 2147483647) :
    readInt (IStream.mk (' ' :: decimalInt z) false false) = (some z, IStream.mk [] true false) := by
  have hdig := decimal_isdigit z.natAbs
  obtain ⟨c, r, hcr⟩ := List.exists_cons_of_ne_nil (decimal_ne_nil z.natAbs)
  have hc : isdigit c = true := hdig c (by rw [hcr]; simp)
  have hval := digitsVal_decimal z.natAbs
  by_cases hz : z < 0
  · have hsentry : sentry (IStream.mk (' ' :: decimalInt z) false false) =
        (true, IStream.mk ('-' :: decimal z.natAbs) false false) := by
      simp [sentry, decimalInt, hz, List.dropWhile_cons, isspace]
    have hv : -(((z.natAbs : Nat) : Int)) = z := by omega
    unfold readInt
    rw [hsentry]
    simp only [readSign, takeWhile_all isdigit _ hdig, dropWhile_all isdigit _ hdig, hval]
    rw [hcr]
    simp only [List.isEmpty_cons, List.isEmpty_nil, if_true, hv]
    have h1 : ¬ z < -2147483648 := by omega
    have h2 : ¬ 2147483647 < z := by omega
    simp [h1, h2]
  · have hsentry : sentry (IStream.mk (' ' :: decimalInt z) false false) =
        (true, IStream.mk (c :: r) false false) := by
      have hsp : isspace ' ' = true := by decide
      have hdw : List.dropWhile isspace (' ' :: c :: r) = c :: r := by
        simp [List.dropWhile_cons, hsp, isdigit_not_isspace hc]
      simp only [sentry, decimalInt, hz, hcr, if_false, Bool.or_self, Bool.false_eq_true, hdw]
    have hv : (((z.natAbs : Nat) : Int)) = z := by omega
    have hdig2 : ∀ x ∈ c :: r, isdigit x = true := by rw [← hcr]; exact hdig
    have hval2 : digitsVal (c :: r) = z.natAbs := by rw [← hcr]; exact hval
    unfold readInt
    rw [hsentry]
    simp only [readSign_of_digit c r hc, takeWhile_all isdigit _ hdig2,
      dropWhile_all isdigit _ hdig2, hval2]
    simp only [List.isEmpty_cons, List.isEmpty_nil, hv]
    have h1 : ¬ z < -2147483648 := by omega
    have h2 : ¬ 2147483647 < z := by omega
    simp [h1, h2]

/-- The extraction of a string skips the whitespace `ws` and takes the token `tok`. -/
theorem readString_token (ws tok rest : List Char) (hws : ∀ c ∈ ws, isspace c = true)
    (htok : ∀ c ∈ tok, isspace c = false) (hne : tok ≠ [])
    (hrest : ∀ c, rest.head? = some c → isspace c = true) :
    readString (IStream.mk (ws ++ tok ++ rest) false false) =
      (tok, IStream.mk rest rest.isEmpty false) := by
  obtain ⟨c, r, rfl⟩ := List.exists_cons_of_ne_nil hne
  have hc : isspace c = false := htok c (by simp)
  have hdrop : (ws ++ (c :: r ++ rest)).dropWhile isspace = c :: r ++ rest :=
    dropWhile_append_stop isspace ws (c :: r ++ rest) hws (by
      intro x hx
      simp only [List.cons_append, List.head?_cons, Option.some.injEq] at hx
      rw [← hx]; exact hc)
  have hsentry : sentry (IStream.mk (ws ++ c :: r ++ rest) false false) =
      (true, IStream.mk (c :: r ++ rest) false false) := by
    unfold sentry
    simp only [Bool.or_self, Bool.false_eq_true, if_false, List.append_assoc, hdrop]
    rfl
  have htok2 : ∀ x ∈ c :: r, (fun y => !isspace y) x = true := by
    intro x hx; simp [htok x hx]
  have hrest2 : ∀ x, rest.head? = some x → (fun y => !isspace y) x = false := by
    intro x hx; simp [hrest x hx]
  unfold readString
  rw [hsentry]
  simp only
  rw [takeWhile_append_stop _ (c :: r) rest htok2 hrest2,
    dropWhile_append_stop _ (c :: r) rest htok2 hrest2]

/-- The extraction of a string from a line of whitespace only finds no token. -/
theorem readString_blank (ws : List Char) (hws : ∀ c ∈ ws, isspace c = true) :
    (readString (IStream.mk ws false false)).1 = [] := by
  unfold readString sentry
  simp only [Bool.or_self, Bool.false_eq_true, if_false, dropWhile_all isspace ws hws]

/-- A value that fits an `int` is not changed by the 32-bit wrap. -/
theorem toInt32_of_inRange (x : Int) (hlo : -2147483648 ≤ x) (hhi : x < 2147483648) :
    toInt32 x = x := by
  unfold toInt32
  have h : (x + 2147483648) % 4294967296 = x + 2147483648 :=
    Int.emod_eq_of_lt (by omega) (by omega)
  omega

/-- What the loop body does on a line `mix $ref tail`, whatever the reference text `ref`
(without whitespace) and the rest of the line are. -/
theorem processLine_mix (past : Nat → ℚ) (aux : List (List ℚ)) (main : List ℚ)
    (ref tail : List Char) (href : ∀ c ∈ ref, isspace c = false) :
    processLine past aux main (mixCommand ++ [' ', '$'] ++ ref ++ ' ' :: tail) =
      match stoi ref with
      | none => Except.error Failure.uncaught
      | some inputIndex =>
        match (readInt (IStream.mk (' ' :: tail) false false)).1 with
        | none => Except.error Failure.undefinedBehaviour
        | some startTime =>
          match (if 0 ≤ toInt32 (inputIndex - 2) then aux[(toInt32 (inputIndex - 2)).toNat]?
            else none) with
          | some input2 => Except.ok (applyMix past main input2 startTime)
          | none => Except.error Failure.undefinedBehaviour := by
  have hskip : skipped (mixCommand ++ [' ', '$'] ++ ref ++ ' ' :: tail) = false := by
    simp [skipped, mixCommand]
  have h1 : readString (IStream.ofLine (mixCommand ++ [' ', '$'] ++ ref ++ ' ' :: tail)) =
      (mixCommand, IStream.mk ([' '] ++ ('$' :: ref) ++ (' ' :: tail)) false false) := by
    have h := readString_token [] mixCommand ([' '] ++ ('$' :: ref) ++ (' ' :: tail)) (by simp)
      (by decide) (by decide) (by
        intro c hc
        simp only [List.singleton_append, List.cons_append, List.head?_cons,
          Option.some.injEq] at hc
        rw [← hc]; decide)
    simp only [List.nil_append] at h
    have hl : IStream.ofLine (mixCommand ++ [' ', '$'] ++ ref ++ ' ' :: tail) =
        IStream.mk (mixCommand ++ ([' '] ++ ('$' :: ref) ++ (' ' :: tail))) false false := by
      simp [IStream.ofLine]
    rw [hl, h]
    simp
  have h2 : readString (IStream.mk ([' '] ++ ('$' :: ref) ++ (' ' :: tail)) false false) =
      ('$' :: ref, IStream.mk (' ' :: tail) false false) := by
    have h := readString_token [' '] ('$' :: ref) (' ' :: tail)
      (by decide) (by
        intro c hc
        rcases List.mem_cons.mp hc with hc | hc
        · rw [hc]; decide
        · exact href c hc) (by simp) (by
        intro c hc
        simp only [List.head?_cons, Option.some.injEq] at hc
        rw [← hc]; decide)
    rw [h]
    simp
  unfold processLine
  rw [hskip]
  simp only [Bool.false_eq_true, if_false, h1]
  have hne1 : mixCommand ≠ muteCommand := by decide
  rw [if_neg hne1, if_pos trivial]
  unfold runMix
  simp only [h2, List.head?_cons, if_true, List.drop_succ_cons, List.drop_zero]

/-- What the loop body does on the line `mix $N offset`, for `int` values `N ≥ 0` and
`offset`: the reference resolves to index `N - 2` of `input_samples`. -/
theorem processLine_mixLine (past : Nat → ℚ) (aux : List (List ℚ)) (main : List ℚ)
    (N : Nat) (offset : Int) (hN : N ≤ 2147483647)
    (hlo : -2147483648 ≤ offset) (hhi : offset ≤ 2147483647) :
    processLine past aux main (mixLine N offset) =
      match (if 2 ≤ N then aux[N - 2]? else none) with
      | some input2 => Except.ok (applyMix past main input2 offset)
      | none => Except.error Failure.undefinedBehaviour := by
  have hdig := decimal_isdigit N
  have hnsp : ∀ c ∈ decimal N, isspace c = false := fun c hc => isdigit_not_isspace (hdig c hc)
  have h3 := readInt_decimalInt offset hlo hhi
  have h4 : stoi (decimal N) = some (N : Int) := by
    have h := stoi_digits (decimal N) (decimal_ne_nil N) hdig (by rw [digitsVal_decimal]; exact hN)
    rw [digitsVal_decimal] at h
    exact h
  have hidx : toInt32 ((N : Int) - 2) = (N : Int) - 2 :=
    toInt32_of_inRange _ (by omega) (by omega)
  have hl : mixLine N offset = mixCommand ++ [' ', '$'] ++ decimal N ++ ' ' :: decimalInt offset := by
    simp [mixLine]
  rw [hl, processLine_mix past aux main (decimal N) (decimalInt offset) hnsp, h4]
  simp only [h3, hidx]
  by_cases h2 : 2 ≤ N
  · have h0 : (0 : Int) ≤ (N : Int) - 2 := by omega
    have hn : ((N : Int) - 2).toNat = N - 2 := by omega
    rw [if_pos h0, if_pos h2, hn]
  · have h0 : ¬ (0 : Int) ≤ (N : Int) - 2 := by omega
    rw [if_neg h0, if_neg h2]

/-- An `int` extraction that meets a character that is no digit, no sign and no whitespace
stores `0`. -/
theorem readInt_malformed (c : Char) (r : List Char) (hsp : isspace c = false)
    (hd : isdigit c = false) (hm : c ≠ '-') (hp : c ≠ '+') :
    (readInt (IStream.mk (' ' :: c :: r) false false)).1 = some 0 := by
  have hsp0 : isspace ' ' = true := by decide
  have hdw : List.dropWhile isspace (' ' :: c :: r) = c :: r := by
    simp [List.dropWhile_cons, hsp0, hsp]
  have hsentry : sentry (IStream.mk (' ' :: c :: r) false false) =
      (true, IStream.mk (c :: r) false false) := by
    simp only [sentry, Bool.or_self, Bool.false_eq_true, if_false, hdw]
  have hsign : readSign (c :: r) = (false, c :: r) := by
    unfold readSign
    split
    · rename_i heq; simp at heq; exact absurd heq.1 hm
    · rename_i heq; simp at heq; exact absurd heq.1 hp
    · rfl
  unfold readInt
  rw [hsentry]
  simp only [hsign, List.takeWhile_cons, hd]
  simp

/-- The conversion `std::stoi` throws on a text that starts with a character that is no
digit, no sign and no whitespace, and on the empty text. -/
theorem stoi_malformed (c : Char) (r : List Char) (hsp : isspace c = false)
    (hd : isdigit c = false) (hm : c ≠ '-') (hp : c ≠ '+') : stoi (c :: r) = none := by
  have hdw : List.dropWhile isspace (c :: r) = c :: r := by
    simp [List.dropWhile_cons, hsp]
  have hsign : readSign (c :: r) = (false, c :: r) := by
    unfold readSign
    split
    · rename_i heq; simp at heq; exact absurd heq.1 hm
    · rename_i heq; simp at heq; exact absurd heq.1 hp
    · rfl
  unfold stoi
  simp only [hdw, hsign, List.takeWhile_cons, hd]
  simp

/-! ## Lemmas on the script loop -/

theorem processLines_append (past : Nat → ℚ) (aux : List (List ℚ)) :
    ∀ (pre post : List (List Char)) (main : List ℚ),
      processLines past aux main (pre ++ post) =
        match processLines past aux main pre with
        | (n, Except.ok mid) =>
          (n + (processLines past aux mid post).1, (processLines past aux mid post).2)
        | (n, Except.error e) => (n, Except.error e) := by
  intro pre
  induction pre with
  | nil => intro post main; simp [processLines]
  | cons line pre ih =>
    intro post main
    simp only [List.cons_append, processLines]
    cases hl : processLine past aux main line with
    | error e => simp
    | ok next =>
      simp only [List.append_eq]
      rw [ih post next]
      cases hp : processLines past aux next pre with
      | mk n res =>
        cases res with
        | error e => simp
        | ok mid => simp; omega

theorem processLines_executed_of_ok (past : Nat → ℚ) (aux : List (List ℚ)) :
    ∀ (script : List (List Char)) (main final : List ℚ),
      (processLines past aux main script).2 = Except.ok final →
        (processLines past aux main script).1 = script.length := by
  intro script
  induction script with
  | nil => intro main final _; rfl
  | cons line rest ih =>
    intro main final h
    simp only [processLines] at h ⊢
    cases hl : processLine past aux main line with
    | error e => rw [hl] at h; simp at h
    | ok next =>
      rw [hl] at h
      simp only at h ⊢
      rw [ih next final h]
      simp

theorem processLines_skipped (past : Nat → ℚ) (aux : List (List ℚ)) (main : List ℚ) :
    ∀ (script : List (List Char)), (∀ line ∈ script, skipped line = true) →
      processLines past aux main script = (script.length, Except.ok main) := by
  intro script
  induction script with
  | nil => intro _; rfl
  | cons line rest ih =>
    intro h
    have hl : processLine past aux main line = Except.ok main := by
      unfold processLine
      rw [if_pos (h line (by simp))]
    have hr := ih (fun l hlr => h l (by simp [hlr]))
    simp only [processLines, hl, hr, List.length_cons]

/-! ## The transforms: mute window, mix halving, speed-up length and interpolation -/

/-- Muting seconds `0` to `2` silences a constant buffer of at most `2 * 44100` frames. -/
theorem applyMute_replicate_full (n : Nat) (hn : n ≤ 88200) (x : ℚ) :
    applyMute (List.replicate n x) 0 2 = List.replicate n 0 := by
  apply List.ext_getElem?
  intro f
  rw [applyMute_getElem?]
  have h0 : frameOf 0 = 0 := by decide
  have h2 : frameOf 2 = 88200 := by decide
  rw [h0, h2]
  by_cases hf : f < n
  · have hc : (0 : Int) ≤ (f : Int) ∧ (f : Int) < 88200 := by omega
    rw [if_pos hc]
    simp [List.getElem?_replicate, hf]
  · have hc : ¬ f < n := hf
    simp [List.getElem?_replicate, hf]

/-- C1: `applyMute b start end_` has the length of `b`; with `startFrame` and `endFrame`
the `int` products `start * 44100` and `end_ * 44100` of the code (`frameOf`, equal to
the exact products whenever these fit 32 bits), every frame `f` with
`startFrame ≤ f < endFrame` is `0` and every other frame is `b[f]`; and muting seconds
`0` to `2` of a buffer of `2 * 44100` ones gives `2 * 44100` zeros. -/
theorem applyMute_window (b : List ℚ) (start end_ : Int) :
    (applyMute b start end_).length = b.length ∧
    (∀ f : Nat, f < b.length →
      (applyMute b start end_)[f]? =
        if frameOf start ≤ (f : Int) ∧ (f : Int) < frameOf end_ then some 0 else b[f]?) ∧
    (∀ s : Int, -2147483648 ≤ s * 44100 → s * 44100 < 2147483648 → frameOf s = s * 44100) ∧
    applyMute (List.replicate (2 * 44100) 1) 0 2 = List.replicate (2 * 44100) 0 := by
  refine ⟨applyMute_length b start end_, ?_, frameOf_eq_of_inRange, ?_⟩
  · intro f hf
    rw [applyMute_getElem?]
    by_cases hc : frameOf start ≤ (f : Int) ∧ (f : Int) < frameOf end_
    · rw [if_pos hc, if_pos hc, List.getElem?_eq_getElem hf]; rfl
    · rw [if_neg hc, if_neg hc]
  · exact applyMute_replicate_full (2 * 44100) (by norm_num) 1

/-- Worked instance for C1: the middle frame of a three-frame buffer muted from
second `0` to second `2`. -/
theorem applyMute_window_witness :
    (1 : Nat) < ([1, 1, 1] : List ℚ).length ∧
      (applyMute [1, 1, 1] 0 2)[1]? =
        if frameOf 0 ≤ ((1 : Nat) : Int) ∧ ((1 : Nat) : Int) < frameOf 2 then some 0
        else ([1, 1, 1] : List ℚ)[1]? :=
  ⟨by decide, (applyMute_window [1, 1, 1] 0 2).2.1 1 (by decide)⟩

/-- C2: when the secondary buffer `s` is at least as long as the primary `p`,
`applyMix p s offset` has the length of `p` and its frame `f` is `(p[f] + s[f]) / 2` from
`offsetFrame` on and `p[f] / 2` before it, `offsetFrame` being the `int` product
`offset * 44100` of the code: every frame is halved, also those that receive nothing
from `s`. -/
theorem applyMix_halves (past : Nat → ℚ) (p s : List ℚ) (offset : Int)
    (h : p.length ≤ s.length) :
    (applyMix past p s offset).length = p.length ∧
    (∀ (f : Nat) (hf : f < p.length),
      (applyMix past p s offset)[f]? =
        some (if frameOf offset ≤ (f : Int)
          then (p.get ⟨f, hf⟩ + s.get ⟨f, Nat.lt_of_lt_of_le hf h⟩) / 2
          else p.get ⟨f, hf⟩ / 2)) ∧
    (∀ x : Int, -2147483648 ≤ x * 44100 → x * 44100 < 2147483648 → frameOf x = x * 44100) := by
  refine ⟨applyMix_length past p s offset, ?_, frameOf_eq_of_inRange⟩
  intro f hf
  have hs : f < s.length := Nat.lt_of_lt_of_le hf h
  have hr : readAt past s f = s.get ⟨f, hs⟩ :=
    readAt_of_getElem? (by simp [List.getElem?_eq_getElem hs])
  rw [applyMix_getElem?, List.getElem?_eq_getElem hf, hr]
  by_cases hc : frameOf offset ≤ (f : Int)
  · simp [hc]
  · simp [hc]

/-- Worked instance for C2: two frames mixed with a two-frame secondary from
second `1` on, so that neither frame receives anything and both are halved. -/
theorem applyMix_halves_witness :
    ([1, 1] : List ℚ).length ≤ ([1, 1] : List ℚ).length ∧
      (applyMix (fun _ => 0) [1, 1] [1, 1] 1).length = ([1, 1] : List ℚ).length :=
  ⟨by decide, (applyMix_halves (fun _ => 0) [1, 1] [1, 1] 1 (by decide)).1⟩

/-- C4: for a strictly positive factor and an output frame `i < ⌊length b / factor⌋` whose
two source frames `intT = ⌊i * factor⌋` and `intT + 1` lie inside `b`, the `i`-th sample of
`applySpeedUp b factor` is `(1 - frac) * b[intT] + frac * b[intT + 1]` with
`frac = i * factor - intT`. -/
theorem applySpeedUp_interpolates (past : Nat → ℚ) (b : List ℚ) (factor : ℚ) (i : Nat)
    (hpos : 0 < factor) (hi : i < ⌊(b.length : ℚ) / factor⌋₊)
    (hin : ⌊(i : ℚ) * factor⌋₊ + 1 < b.length) :
    (applySpeedUp past b factor)[i]? =
      some ((1 - ((i : ℚ) * factor - (⌊(i : ℚ) * factor⌋₊ : ℚ)))
          * b.get ⟨⌊(i : ℚ) * factor⌋₊, Nat.lt_of_succ_lt hin⟩
        + ((i : ℚ) * factor - (⌊(i : ℚ) * factor⌋₊ : ℚ))
          * b.get ⟨⌊(i : ℚ) * factor⌋₊ + 1, hin⟩) := by
  rw [applySpeedUp_getElem?_of_lt past b factor hpos i hi,
    speedUpSample_of_inRange past b factor hpos i hin]

/-- Worked instance for C4: output frame `1` of four frames at factor
`3/2` reads the source frames `1` and `2`. -/
theorem applySpeedUp_interpolates_witness :
    ∃ (_ : (0 : ℚ) < 3 / 2)
      (_ : 1 < ⌊((([1, 2, 3, 4] : List ℚ).length : Nat) : ℚ) / (3 / 2)⌋₊)
      (hin : ⌊((1 : Nat) : ℚ) * (3 / 2)⌋₊ + 1 < ([1, 2, 3, 4] : List ℚ).length),
      (applySpeedUp (fun _ => 0) [1, 2, 3, 4] (3 / 2))[1]? =
        some ((1 - (((1 : Nat) : ℚ) * (3 / 2) - (⌊((1 : Nat) : ℚ) * (3 / 2)⌋₊ : ℚ)))
            * ([1, 2, 3, 4] : List ℚ).get ⟨⌊((1 : Nat) : ℚ) * (3 / 2)⌋₊, Nat.lt_of_succ_lt hin⟩
          + (((1 : Nat) : ℚ) * (3 / 2) - (⌊((1 : Nat) : ℚ) * (3 / 2)⌋₊ : ℚ))
            * ([1, 2, 3, 4] : List ℚ).get ⟨⌊((1 : Nat) : ℚ) * (3 / 2)⌋₊ + 1, hin⟩) := by
  have hpos : (0 : ℚ) < 3 / 2 := by norm_num
  have hfl : ⌊((([1, 2, 3, 4] : List ℚ).length : Nat) : ℚ) / (3 / 2)⌋₊ = 2 := by
    rw [Nat.floor_eq_iff (by norm_num)]
    norm_num
  have hfl1 : ⌊((1 : Nat) : ℚ) * (3 / 2)⌋₊ = 1 := by
    rw [Nat.floor_eq_iff (by norm_num)]
    norm_num
  have hi : 1 < ⌊((([1, 2, 3, 4] : List ℚ).length : Nat) : ℚ) / (3 / 2)⌋₊ := by
    rw [hfl]; decide
  have hin : ⌊((1 : Nat) : ℚ) * (3 / 2)⌋₊ + 1 < ([1, 2, 3, 4] : List ℚ).length := by
    rw [hfl1]; decide
  exact ⟨hpos, hi, hin, applySpeedUp_interpolates (fun _ => 0) [1, 2, 3, 4] (3 / 2) 1 hpos hi hin⟩

/-! ## The script interpreter -/

/-- C5: on the script line `mix $N offset` with `2 ≤ N < 2 + length aux` (`N` and
`offset` being `int` values, written in decimal), the loop body succeeds and replaces the
main buffer by `applyMix main aux[N-2] offset`: the reference `$N` resolves to the
zero-based index `N - 2`, so `$2` is the first auxiliary buffer. -/
theorem mix_reference_resolves (past : Nat → ℚ) (aux : List (List ℚ)) (main : List ℚ)
    (N : Nat) (offset : Int) (h2 : 2 ≤ N) (hlt : N < 2 + aux.length)
    (hN : N ≤ 2147483647) (hlo : -2147483648 ≤ offset) (hhi : offset ≤ 2147483647) :
    processLine past aux main (mixLine N offset) =
      Except.ok (applyMix past main (aux.get ⟨N - 2, by omega⟩) offset) := by
  rw [processLine_mixLine past aux main N offset hN hlo hhi, if_pos h2,
    List.getElem?_eq_getElem (show N - 2 < aux.length by omega)]
  rfl

/-- Worked instance for C5: the line `mix $2 0` with one auxiliary buffer. -/
theorem mix_reference_resolves_witness :
    mixLine 2 0 = ['m', 'i', 'x', ' ', '$', '2', ' ', '0'] ∧
      processLine (fun _ => 0) [[0, 0]] [1, 1] (mixLine 2 0) =
        Except.ok (applyMix (fun _ => 0) [1, 1]
          (([[0, 0]] : List (List ℚ)).get ⟨2 - 2, by decide⟩) 0) :=
  ⟨by decide, mix_reference_resolves (fun _ => 0) [[0, 0]] [1, 1] 2 0 (by decide) (by decide)
    (by decide) (by decide) (by decide)⟩

/-- C6 (what the code does): on a line `mix $N offset` whose `N` is below `2` or whose
index `N - 2` is outside the auxiliary set, no `ConfigFileException` is thrown: the code
indexes `input_samples` out of range, which is undefined behaviour. -/
theorem mix_reference_out_of_range (past : Nat → ℚ) (aux : List (List ℚ)) (main : List ℚ)
    (N : Nat) (offset : Int) (hbad : N < 2 ∨ aux.length ≤ N - 2)
    (hN : N ≤ 2147483647) (hlo : -2147483648 ≤ offset) (hhi : offset ≤ 2147483647) :
    processLine past aux main (mixLine N offset) = Except.error Failure.undefinedBehaviour ∧
      processLine past aux main (mixLine N offset) ≠ Except.error Failure.configError := by
  have h : processLine past aux main (mixLine N offset) =
      Except.error Failure.undefinedBehaviour := by
    rw [processLine_mixLine past aux main N offset hN hlo hhi]
    by_cases h2 : 2 ≤ N
    · have hle : aux.length ≤ N - 2 := by omega
      rw [if_pos h2, List.getElem?_eq_none hle]
    · rw [if_neg h2]
  rw [h]
  exact ⟨rfl, by decide⟩

/-- Worked instance for C6: the line `mix $1 0`. -/
theorem mix_reference_out_of_range_witness :
    mixLine 1 0 = ['m', 'i', 'x', ' ', '$', '1', ' ', '0'] ∧
      processLine (fun _ => 0) [[0, 0]] [1, 1] (mixLine 1 0) =
        Except.error Failure.undefinedBehaviour :=
  ⟨by decide, (mix_reference_out_of_range (fun _ => 0) [[0, 0]] [1, 1] 1 0 (by decide)
    (by decide) (by decide) (by decide)).1⟩

/-- C7: a non-skipped line whose first whitespace-separated token `tok` is none of
`mute`, `mix`, `speed_up` (also a line of whitespace only, which has no token) makes the
loop body throw `ConfigFileException`; and so does a `mix` line whose reference token
`ref` does not start with `$`. -/
theorem unknown_command_rejected (past : Nat → ℚ) (aux : List (List ℚ)) (main : List ℚ) :
    (∀ ws tok rest : List Char,
      (∀ c ∈ ws, isspace c = true) → (∀ c ∈ tok, isspace c = false) →
      (∀ c, rest.head? = some c → isspace c = true) → (tok = [] → rest = []) →
      skipped (ws ++ tok ++ rest) = false →
      tok ≠ muteCommand → tok ≠ mixCommand → tok ≠ speedUpCommand →
      processLine past aux main (ws ++ tok ++ rest) = Except.error Failure.configError) ∧
    (∀ ws ws2 ref rest : List Char,
      (∀ c ∈ ws, isspace c = true) → (∀ c ∈ ws2, isspace c = true) → ws2 ≠ [] →
      (∀ c ∈ ref, isspace c = false) → ref ≠ [] → ref.head? ≠ some '$' →
      (∀ c, rest.head? = some c → isspace c = true) →
      skipped (ws ++ mixCommand ++ ws2 ++ ref ++ rest) = false →
      processLine past aux main (ws ++ mixCommand ++ ws2 ++ ref ++ rest) =
        Except.error Failure.configError) := by
  constructor
  · intro ws tok rest hws htok hrest hnil hskip h1 h2 h3
    unfold processLine
    rw [hskip]
    simp only [Bool.false_eq_true, if_false]
    by_cases hne : tok = []
    · have hr := hnil hne
      subst hne; subst hr
      have hb := readString_blank ws hws
      simp only [List.append_nil, IStream.ofLine, hb]
      rw [if_neg (by decide), if_neg (by decide), if_neg (by decide)]
    · have ht := readString_token ws tok rest hws htok hne hrest
      simp only [IStream.ofLine, ht]
      rw [if_neg h1, if_neg h2, if_neg h3]
  · intro ws ws2 ref rest hws hws2 hne2 href hner hdollar hrest hskip
    obtain ⟨d, r2, rfl⟩ := List.exists_cons_of_ne_nil hne2
    have hd : isspace d = true := hws2 d (by simp)
    have ht := readString_token ws mixCommand (d :: r2 ++ ref ++ rest) hws (by decide)
      (by decide) (by
        intro c hc
        simp only [List.cons_append, List.head?_cons, Option.some.injEq] at hc
        rw [← hc]; exact hd)
    have hline : ws ++ mixCommand ++ (d :: r2) ++ ref ++ rest =
        ws ++ mixCommand ++ (d :: r2 ++ ref ++ rest) := by simp
    have ht2 := readString_token (d :: r2) ref rest hws2 href hner hrest
    unfold processLine
    rw [hskip]
    simp only [Bool.false_eq_true, if_false, IStream.ofLine, hline, ht]
    rw [if_neg (by decide), if_pos trivial]
    unfold runMix
    have hemp : (d :: r2 ++ ref ++ rest).isEmpty = false := by simp
    simp only [hemp, ht2]
    rw [if_neg hdollar]

/-- Worked instance for C7: the line `foo 1 2`. -/
theorem unknown_command_rejected_witness :
    processLine (fun _ => 0) [[0, 0]] [1, 1] ([] ++ ['f', 'o', 'o'] ++ [' ', '1', ' ', '2']) =
      Except.error Failure.configError :=
  (unknown_command_rejected (fun _ => 0) [[0, 0]] [1, 1]).1 [] ['f', 'o', 'o']
    [' ', '1', ' ', '2'] (by simp) (by decide) (by decide) (by decide) (by decide)
    (by decide) (by decide) (by decide)

/-- C8 (refuted as stated): the line `mix $2 x` carries a malformed offset, yet the loop
body throws nothing: it mixes with the offset `0` that the failed extraction stored. -/
theorem malformed_offset_is_executed :
    processLine (fun _ => 0) [[0, 0]] [1, 1] ['m', 'i', 'x', ' ', '$', '2', ' ', 'x'] =
        Except.ok (applyMix (fun _ => 0) [1, 1] [0, 0] 0) ∧
      processLine (fun _ => 0) [[0, 0]] [1, 1] ['m', 'i', 'x', ' ', '$', '2', ' ', 'x'] ≠
        Except.error Failure.configError := by
  have h := processLine_mix (fun _ => 0) [[0, 0]] [1, 1] ['2'] ['x'] (by decide)
  have hs : stoi ['2'] = some 2 := by decide
  have hr := readInt_malformed 'x' [] (by decide) (by decide) (by decide) (by decide)
  have hi : toInt32 (2 - 2) = 0 := by decide
  rw [hs] at h
  simp only [hr, hi] at h
  have hl : mixCommand ++ [' ', '$'] ++ ['2'] ++ [' ', 'x'] =
      ['m', 'i', 'x', ' ', '$', '2', ' ', 'x'] := by decide
  rw [hl] at h
  have h' : processLine (fun _ => 0) [[0, 0]] [1, 1] ['m', 'i', 'x', ' ', '$', '2', ' ', 'x'] =
      Except.ok (applyMix (fun _ => 0) [1, 1] [0, 0] 0) := by
    rw [h]; rfl
  refine ⟨h', ?_⟩
  rw [h']
  exact fun hc => by cases hc

/-- C8 (amended): a malformed numeric argument of `mix` is not reported as a script
error.  On `mix $N tok ...`, with `2 ≤ N < 2 + length aux` and `tok` starting with a
character that is no digit, sign or whitespace, the loop body succeeds with
`applyMix main aux[N-2] 0`; on `mix $ref ...`, with `ref` starting with such a character,
`std::stoi` throws an exception that is not a `ConfigFileException`. -/
theorem malformed_numeric_not_rejected (past : Nat → ℚ) (aux : List (List ℚ)) (main : List ℚ)
    (c : Char) (hsp : isspace c = false) (hd : isdigit c = false) (hm : c ≠ '-')
    (hp : c ≠ '+') :
    (∀ (N : Nat) (r : List Char) (hlt : N - 2 < aux.length), 2 ≤ N → N ≤ 2147483647 →
      processLine past aux main (mixCommand ++ [' ', '$'] ++ decimal N ++ ' ' :: c :: r) =
        Except.ok (applyMix past main (aux.get ⟨N - 2, hlt⟩) 0)) ∧
    (∀ r tail : List Char, (∀ x ∈ r, isspace x = false) →
      processLine past aux main (mixCommand ++ [' ', '$'] ++ (c :: r) ++ ' ' :: tail) =
        Except.error Failure.uncaught) := by
  constructor
  · intro N r hlt h2 hN
    have hdig := decimal_isdigit N
    have hnsp : ∀ x ∈ decimal N, isspace x = false :=
      fun x hx => isdigit_not_isspace (hdig x hx)
    have h4 : stoi (decimal N) = some (N : Int) := by
      have h := stoi_digits (decimal N) (decimal_ne_nil N) hdig
        (by rw [digitsVal_decimal]; exact hN)
      rw [digitsVal_decimal] at h
      exact h
    have hidx : toInt32 ((N : Int) - 2) = (N : Int) - 2 :=
      toInt32_of_inRange _ (by omega) (by omega)
    have h0 : (0 : Int) ≤ (N : Int) - 2 := by omega
    have hn : ((N : Int) - 2).toNat = N - 2 := by omega
    rw [processLine_mix past aux main (decimal N) (c :: r) hnsp, h4]
    simp only [readInt_malformed c r hsp hd hm hp, hidx, if_pos h0, hn,
      List.getElem?_eq_getElem hlt]
    rfl
  · intro r tail hr
    have href : ∀ x ∈ c :: r, isspace x = false := by
      intro x hx
      rcases List.mem_cons.mp hx with hx | hx
      · rw [hx]; exact hsp
      · exact hr x hx
    rw [processLine_mix past aux main (c :: r) tail href, stoi_malformed c r hsp hd hm hp]

/-- Worked instance for the amended C8: the lines `mix $2 x` and `mix $x 0`. -/
theorem malformed_numeric_not_rejected_witness :
    processLine (fun _ => 0) [[0, 0]] [1, 1]
        (mixCommand ++ [' ', '$'] ++ decimal 2 ++ ' ' :: 'x' :: []) =
        Except.ok (applyMix (fun _ => 0) [1, 1]
          (([[0, 0]] : List (List ℚ)).get ⟨2 - 2, by decide⟩) 0) ∧
      processLine (fun _ => 0) [[0, 0]] [1, 1]
        (mixCommand ++ [' ', '$'] ++ ('x' :: []) ++ ' ' :: ['0']) =
        Except.error Failure.uncaught :=
  ⟨(malformed_numeric_not_rejected (fun _ => 0) [[0, 0]] [1, 1] 'x' (by decide) (by decide)
      (by decide) (by decide)).1 2 [] (by decide) (by decide) (by decide),
    (malformed_numeric_not_rejected (fun _ => 0) [[0, 0]] [1, 1] 'x' (by decide) (by decide)
      (by decide) (by decide)).2 [] ['0'] (by simp)⟩

/-- C9: when the lines `pre` all succeed and the next line `bad` throws, the run stops on
that line whatever follows it: `bad` is the last line executed and `saveAudioFile` is not
called; and when every line succeeds, every line is executed and `saveAudioFile` is
called exactly once, with the final main buffer. -/
theorem run_aborts_at_first_error (past : Nat → ℚ) (aux : List (List ℚ)) (main : List ℚ) :
    (∀ (pre post : List (List Char)) (bad : List Char) (mid : List ℚ) (e : Failure),
      (processLines past aux main pre).2 = Except.ok mid →
      processLine past aux mid bad = Except.error e →
      e = Failure.configError ∨ e = Failure.uncaught →
      processConfigFile past aux main (some (pre ++ bad :: post)) =
        Outcome.mk (pre.length + 1) [] (Except.error e)) ∧
    (∀ (script : List (List Char)) (final : List ℚ),
      (processLines past aux main script).2 = Except.ok final →
      processConfigFile past aux main (some script) =
        Outcome.mk script.length [final] (Except.ok ())) := by
  constructor
  · intro pre post bad mid e hpre hbad _
    have hn := processLines_executed_of_ok past aux pre main mid hpre
    have hp : processLines past aux main pre = (pre.length, Except.ok mid) := by
      rw [← hn, ← hpre]
    have hb : processLines past aux mid (bad :: post) = (1, Except.error e) := by
      simp only [processLines, hbad]
    unfold processConfigFile
    simp only [processLines_append, hp, hb]
  · intro script final hfin
    have hn := processLines_executed_of_ok past aux script main final hfin
    have hp : processLines past aux main script = (script.length, Except.ok final) := by
      rw [← hn, ← hfin]
    unfold processConfigFile
    simp only [hp]

/-- Worked instance for C9: a comment line, then the unknown command
`foo`, then a line that is never reached. -/
theorem run_aborts_at_first_error_witness :
    processConfigFile (fun _ => 0) [] [1, 1] (some ([['#']] ++ ['f', 'o', 'o'] :: [['#']])) =
      Outcome.mk (([['#']] : List (List Char)).length + 1) [] (Except.error Failure.configError) :=
  (run_aborts_at_first_error (fun _ => 0) [] [1, 1]).1 [['#']] [['#']] ['f', 'o', 'o'] [1, 1]
    Failure.configError (by decide) (by decide) (Or.inl rfl)

/-- C10: a script made only of empty lines and of lines whose first character is `#`
is processed to the end, and the buffer handed to `saveAudioFile` is the initial main
buffer. -/
theorem comment_and_empty_lines_skipped (past : Nat → ℚ) (aux : List (List ℚ))
    (main : List ℚ) (script : List (List Char))
    (h : ∀ line ∈ script, line = [] ∨ line.head? = some '#') :
    processConfigFile past aux main (some script) =
      Outcome.mk script.length [main] (Except.ok ()) := by
  have hs : ∀ line ∈ script, skipped line = true := by
    intro line hl
    rcases h line hl with h1 | h1
    · simp [skipped, h1]
    · simp [skipped, h1]
  unfold processConfigFile
  simp only [processLines_skipped past aux main script hs]

/-- Worked instance for C10: an empty line and a comment line. -/
theorem comment_and_empty_lines_skipped_witness :
    processConfigFile (fun _ => 0) [[0]] [1, 1] (some [[], ['#', ' ', 'x']]) =
      Outcome.mk ([[], ['#', ' ', 'x']] : List (List Char)).length [[1, 1]] (Except.ok ()) :=
  comment_and_empty_lines_skipped (fun _ => 0) [[0]] [1, 1] [[], ['#', ' ', 'x']] (by decide)

/-! ## End-to-end run and the empty mute window -/

/-- A mute window whose start frame is not before its end frame changes nothing. -/
theorem applyMute_of_frames_ge (b : List ℚ) (start end_ : Int)
    (h : frameOf end_ ≤ frameOf start) : applyMute b start end_ = b := by
  apply List.ext_getElem?
  intro f
  rw [applyMute_getElem?]
  have hc : ¬ (frameOf start ≤ (f : Int) ∧ (f : Int) < frameOf end_) := by
    intro hc; omega
  rw [if_neg hc]

/-- Mixing a constant buffer with a constant buffer of the same length from second `0`. -/
theorem applyMix_replicate (past : Nat → ℚ) (n : Nat) (x y : ℚ) :
    applyMix past (List.replicate n x) (List.replicate n y) 0 = List.replicate n ((x + y) / 2) := by
  apply List.ext_getElem?
  intro f
  rw [applyMix_getElem?]
  have h0 : frameOf 0 = 0 := by decide
  have hc : frameOf 0 ≤ (f : Int) := by rw [h0]; omega
  by_cases hf : f < n
  · have hr : readAt past (List.replicate n y) f = y :=
      readAt_of_getElem? (by simp [List.getElem?_replicate, hf])
    simp [List.getElem?_replicate, hf, hc, hr]
  · simp [List.getElem?_replicate, hf]

/-- What the loop body does on the line `mute 0 0.5`: the extraction of `end` stops at the
`.` of `0.5`, so the command is `applyMute main 0 0`. -/
theorem processLine_muteHalfLine (past : Nat → ℚ) (aux : List (List ℚ)) (main : List ℚ) :
    processLine past aux main muteHalfLine = Except.ok (applyMute main 0 0) := by
  have hskip : skipped muteHalfLine = false := by decide
  have h1 : readString (IStream.ofLine muteHalfLine) =
      (muteCommand, IStream.mk [' ', '0', ' ', '0', '.', '5'] false false) := by decide
  have h2 : readInt (IStream.mk [' ', '0', ' ', '0', '.', '5'] false false) =
      (some 0, IStream.mk [' ', '0', '.', '5'] false false) := by decide
  have h3 : readInt (IStream.mk [' ', '0', '.', '5'] false false) =
      (some 0, IStream.mk ['.', '5'] false false) := by decide
  unfold processLine
  rw [hskip]
  simp only [Bool.false_eq_true, if_false, h1, if_true]
  unfold runMute
  simp only [h2, h3]

/-- The run of the script `mix $2 0`, `mute 0 0.5` on a constant main buffer and one
constant auxiliary buffer of the same length. -/
theorem processConfigFile_mix_then_muteHalf (past : Nat → ℚ) (n : Nat) (x y : ℚ) :
    processConfigFile past [List.replicate n y] (List.replicate n x)
        (some [mixLine 2 0, muteHalfLine]) =
      Outcome.mk 2 [List.replicate n ((x + y) / 2)] (Except.ok ()) := by
  have hl1 : processLine past [List.replicate n y] (List.replicate n x) (mixLine 2 0) =
      Except.ok (List.replicate n ((x + y) / 2)) := by
    rw [processLine_mixLine past _ _ 2 0 (by decide) (by decide) (by decide)]
    simp only [le_refl, if_true, Nat.sub_self, List.getElem?_cons_zero]
    rw [applyMix_replicate]
  have hl2 : processLine past [List.replicate n y] (List.replicate n ((x + y) / 2))
      muteHalfLine = Except.ok (List.replicate n ((x + y) / 2)) := by
    rw [processLine_muteHalfLine, applyMute_of_frames_ge _ 0 0 (le_refl _)]
  unfold processConfigFile
  simp only [processLines, hl1, hl2]

/-- C11 (refuted as stated): on one second of `1.0` with one auxiliary second of `0.0`,
the script `mix $2 0`, `mute 0 0.5` saves a buffer whose first frame is `0.5`, not `0.0`. -/
theorem end_to_end_first_frame_not_muted :
    (processConfigFile (fun _ => 0) [List.replicate 44100 0] (List.replicate 44100 1)
        (some [mixLine 2 0, muteHalfLine])).saved = [List.replicate 44100 ((1 + 0) / 2)] ∧
      (List.replicate 44100 (((1 : ℚ) + 0) / 2))[0]? = some (1 / 2) ∧
      (List.replicate 44100 (((1 : ℚ) + 0) / 2))[0]? ≠ some 0 := by
  have h := processConfigFile_mix_then_muteHalf (fun _ => 0) 44100 1 0
  have h0 : (List.replicate 44100 (((1 : ℚ) + 0) / 2))[0]? = some (1 / 2) := by
    rw [List.getElem?_replicate, if_pos (by decide)]
    norm_num
  refine ⟨by rw [h], h0, ?_⟩
  rw [h0]
  norm_num

/-- C11 (amended): with `R = 44100`, a main buffer of `R` frames of `1.0`, one auxiliary
buffer of `R` frames of `0.0` and the script `mix $2 0`, `mute 0 0.5`, both lines are
executed and the buffer saved has `R` frames that are all `0.5`: the seconds of `mute` are
read as `int`, `0.5` is read as `0`, and the window from second `0` to second `0` is
empty. -/
theorem end_to_end_mix_then_fractional_mute (past : Nat → ℚ) :
    processConfigFile past [List.replicate 44100 0] (List.replicate 44100 1)
        (some [mixLine 2 0, muteHalfLine]) =
      Outcome.mk 2 [List.replicate 44100 (1 / 2)] (Except.ok ()) ∧
    (List.replicate 44100 (1 / 2 : ℚ)).length = 44100 ∧
    processLine past [List.replicate 44100 0] (List.replicate 44100 (1 / 2)) muteHalfLine =
      Except.ok (applyMute (List.replicate 44100 (1 / 2)) 0 0) := by
  have h := processConfigFile_mix_then_muteHalf past 44100 1 0
  have hv : ((1 : ℚ) + 0) / 2 = 1 / 2 := by norm_num
  rw [hv] at h
  exact ⟨h, List.length_replicate _ _, processLine_muteHalfLine past _ _⟩

/-- C12 (refuted as stated): second `48696` is after second `1`, yet
`48696 * 44100` wraps to a negative 32-bit frame and the window `[48696, 1)` mutes
frame `0`. -/
theorem mute_reversed_window_overflow :
    (1 : Int) < 48696 ∧ applyMute [1] 48696 1 = [0] ∧ applyMute [1] 48696 1 ≠ [1] := by
  decide

/-- C12 (amended): `applyMute b t t = b` for every `t`, and `applyMute b t2 t1 = b`
whenever `t2 > t1` and both products `t1 * 44100`, `t2 * 44100` fit a 32-bit `int`; more
generally whenever the start frame computed by the code is not before the end frame. -/
theorem mute_empty_window_noop (b : List ℚ) :
    (∀ t : Int, applyMute b t t = b) ∧
    (∀ t1 t2 : Int, t1 < t2 →
      -2147483648 ≤ t1 * 44100 → t1 * 44100 < 2147483648 →
      -2147483648 ≤ t2 * 44100 → t2 * 44100 < 2147483648 →
      applyMute b t2 t1 = b) ∧
    (∀ t1 t2 : Int, frameOf t1 ≤ frameOf t2 → applyMute b t2 t1 = b) := by
  refine ⟨fun t => applyMute_of_frames_ge b t t (le_refl _), ?_,
    fun t1 t2 h => applyMute_of_frames_ge b t2 t1 h⟩
  intro t1 t2 hlt h1 h2 h3 h4
  apply applyMute_of_frames_ge
  rw [frameOf_eq_of_inRange t1 h1 h2, frameOf_eq_of_inRange t2 h3 h4]
  omega

/-- Worked instance for the amended C12: the window from second `3` to second `1`. -/
theorem mute_empty_window_noop_witness :
    (1 : Int) < 3 ∧ applyMute [1, 1] 3 1 = [1, 1] :=
  ⟨by decide, (mute_empty_window_noop [1, 1]).2.1 1 3 (by decide) (by decide) (by decide)
    (by decide) (by decide)⟩

/-! ## Frames visited by the speed-up loop, and the indices it touches -/

theorem mem_speedUpVisited (size : Nat) (factor : ℚ) :
    ∀ (fuel frame j : Nat), j ∈ speedUpVisited size factor fuel frame ↔
      frame ≤ j ∧ j < frame + fuel ∧ (j : ℚ) < (size : ℚ) / factor := by
  intro fuel
  induction fuel with
  | zero =>
    intro frame j
    simp only [speedUpVisited, List.not_mem_nil, false_iff]
    intro h; omega
  | succ fuel ih =>
    intro frame j
    unfold speedUpVisited
    by_cases hc : (frame : ℚ) < (size : ℚ) / factor
    · rw [if_pos hc, List.mem_cons, ih]
      constructor
      · rintro (h | ⟨h1, h2, h3⟩)
        · subst h; exact ⟨le_refl _, by omega, hc⟩
        · exact ⟨by omega, by omega, h3⟩
      · rintro ⟨h1, h2, h3⟩
        by_cases hj : j = frame
        · exact Or.inl hj
        · exact Or.inr ⟨by omega, by omega, h3⟩
    · rw [if_neg hc]
      simp only [List.not_mem_nil, false_iff]
      rintro ⟨h1, _, h3⟩
      apply hc
      have : (frame : ℚ) ≤ (j : ℚ) := by exact_mod_cast h1
      exact lt_of_le_of_lt this h3

/-- The loop of `applySpeedUp` writes one sample at each frame of `speedUpVisited`, in
order: the lists of indices describe the same loop. -/
theorem speedUpLoop_eq_foldl (past : Nat → ℚ) (b : List ℚ) (factor : ℚ) :
    ∀ (fuel frame : Nat) (out : List ℚ),
      speedUpLoop past b factor fuel frame out =
        (speedUpVisited b.length factor fuel frame).foldl
          (fun o fr => o.set fr (speedUpSample past b factor fr)) out := by
  intro fuel
  induction fuel with
  | zero => intro frame out; rfl
  | succ fuel ih =>
    intro frame out
    unfold speedUpLoop speedUpVisited
    by_cases hc : (frame : ℚ) < (b.length : ℚ) / factor
    · rw [if_pos hc, if_pos hc, ih]
      rfl
    · rw [if_neg hc, if_neg hc]
      rfl

/-- With a positive factor the frames written are exactly those that pass the loop
condition. -/
theorem mem_applySpeedUpWrites (b : List ℚ) (factor : ℚ) (hpos : 0 < factor) (j : Nat) :
    j ∈ applySpeedUpWrites b factor ↔ (j : ℚ) < (b.length : ℚ) / factor := by
  have hq : 0 ≤ (b.length : ℚ) / factor := div_nonneg (Nat.cast_nonneg _) (le_of_lt hpos)
  unfold applySpeedUpWrites speedUpFuel
  rw [mem_speedUpVisited, truncToInt_toNat_of_nonneg hq]
  constructor
  · exact fun h => h.2.2
  · intro h
    have := frame_lt_of_cond h
    exact ⟨Nat.zero_le _, by omega, h⟩

theorem truncToInt_natCast (n : Nat) : truncToInt (n : ℚ) = (n : Int) := by
  rw [truncToInt_of_nonneg (Nat.cast_nonneg n)]
  exact Int.floor_natCast n

theorem speedUpSample_factor_one (past : Nat → ℚ) (b : List ℚ) (i : Nat) :
    speedUpSample past b 1 i = readAt past b i := by
  unfold speedUpSample
  simp only [mul_one, truncToInt_natCast, Int.toNat_natCast, Int.cast_natCast, sub_self,
    sub_zero, one_mul, zero_mul, add_zero]

theorem applySpeedUp_factor_one (past : Nat → ℚ) (b : List ℚ) : applySpeedUp past b 1 = b := by
  have hlen : (applySpeedUp past b 1).length = b.length := by
    rw [applySpeedUp_length past b 1 one_pos, div_one, Nat.floor_natCast]
  apply List.ext_getElem?
  intro i
  by_cases hi : i < b.length
  · have hi2 : i < ⌊(b.length : ℚ) / 1⌋₊ := by rw [div_one, Nat.floor_natCast]; exact hi
    rw [applySpeedUp_getElem?_of_lt past b 1 one_pos i hi2, speedUpSample_factor_one,
      List.getElem?_eq_getElem hi]
    exact congrArg some (readAt_of_getElem? (List.getElem?_eq_getElem hi))
  · rw [List.getElem?_eq_none (by omega), List.getElem?_eq_none (by omega)]

/-- C13: `applySpeedUp b 1` is `b` truncated by at most one frame: its length is between
`length b - 1` and `length b`, and each of its frames is the frame of `b` at the same
index (in the model it is `b` itself, the last frame being read with weight `0` on the
element after it). -/
theorem applySpeedUp_one_truncates (past : Nat → ℚ) (b : List ℚ) :
    b.length - 1 ≤ (applySpeedUp past b 1).length ∧
    (applySpeedUp past b 1).length ≤ b.length ∧
    (∀ i : Nat, i < (applySpeedUp past b 1).length → (applySpeedUp past b 1)[i]? = b[i]?) ∧
    applySpeedUp past b 1 = b := by
  have h := applySpeedUp_factor_one past b
  rw [h]
  exact ⟨Nat.sub_le _ _, le_refl _, fun _ _ => rfl, rfl⟩

/-- Worked instance for C13: three frames at factor `1`. -/
theorem applySpeedUp_one_truncates_witness :
    (1 : Nat) < (applySpeedUp (fun _ => 7) [1, 2, 3] 1).length ∧
      (applySpeedUp (fun _ => 7) [1, 2, 3] 1)[1]? = ([1, 2, 3] : List ℚ)[1]? := by
  have h := applySpeedUp_one_truncates (fun _ => 7) [1, 2, 3]
  have hl : (1 : Nat) < (applySpeedUp (fun _ => 7) [1, 2, 3] 1).length := by
    have := h.1
    simp only [List.length_cons, List.length_nil] at this
    omega
  exact ⟨hl, h.2.2.1 1 hl⟩

/-- C14 (what the code does): at factor `1` the last frame of a non-empty buffer `b`
reads `buffer[intT + 1]` with `intT + 1 = length b`, one element past the end: the access
is not clamped. -/
theorem speedUp_reads_past_end (b : List ℚ) (hne : b ≠ []) :
    (b.length : Int) ∈ applySpeedUpReads b 1 ∧
      ¬ (∀ k ∈ applySpeedUpReads b 1, k < (b.length : Int)) := by
  have hpos : 0 < b.length := List.length_pos.mpr hne
  have hmem : (b.length : Int) ∈ applySpeedUpReads b 1 := by
    unfold applySpeedUpReads
    rw [List.mem_flatMap]
    refine ⟨b.length - 1, ?_, ?_⟩
    · have h := (mem_applySpeedUpWrites b 1 one_pos (b.length - 1)).mpr (by
        rw [div_one]
        exact_mod_cast Nat.sub_lt hpos one_pos)
      exact h
    · simp only [mul_one, truncToInt_natCast, List.mem_cons, List.mem_singleton]
      right; left
      omega
  exact ⟨hmem, fun h => lt_irrefl _ (h _ hmem)⟩

/-- Worked instance for C14: a buffer of one frame at factor `1` reads index `1`. -/
theorem speedUp_reads_past_end_witness :
    (([1] : List ℚ).length : Int) ∈ applySpeedUpReads [1] 1 :=
  (speedUp_reads_past_end [1] (by simp)).1

/-- C15 (what the code does): when the secondary buffer `s` is shorter than the primary
`p` and the start frame is not after `length s`, `applyMix` reads `buffer2[length s]`,
one element past the end of `s`, and the frame it returns there is made of whatever that
read finds. -/
theorem mix_reads_past_end (past : Nat → ℚ) (p s : List ℚ) (offset : Int)
    (hshort : s.length < p.length) (hoff : frameOf offset ≤ (s.length : Int)) :
    s.length ∈ applyMixReads p offset ∧
      ¬ (∀ k ∈ applyMixReads p offset, k < s.length) ∧
      (applyMix past p s offset)[s.length]? =
        some ((p.get ⟨s.length, hshort⟩ + past s.length) / 2) := by
  have hmem : s.length ∈ applyMixReads p offset := by
    unfold applyMixReads
    rw [List.mem_filter]
    exact ⟨List.mem_range.mpr hshort, by simpa using hoff⟩
  refine ⟨hmem, fun h => lt_irrefl _ (h _ hmem), ?_⟩
  have hr : readAt past s s.length = past s.length := by
    simp [readAt, List.getElem?_eq_none (le_refl s.length)]
  rw [applyMix_getElem?, List.getElem?_eq_getElem hshort, hr]
  simp [hoff]

/-- Worked instance for C15: two primary frames mixed with one secondary frame. -/
theorem mix_reads_past_end_witness :
    ([1] : List ℚ).length ∈ applyMixReads [1, 1] 0 :=
  (mix_reads_past_end (fun _ => 0) [1, 1] [1] 0 (by decide) (by decide)).1

/-! ## Auxiliary buffers, arguments of `main`, write indices, script order -/

/-- The loop on the data members computes the main buffer of `processLines`. -/
theorem processLinesMembers_of_ok (past : Nat → ℚ) :
    ∀ (script : List (List Char)) (m : Members) (final : List ℚ),
      (processLines past m.input_samples m.main_sample script).2 = Except.ok final →
      processLinesMembers past m script = (Members.mk final m.input_samples, none) := by
  intro script
  induction script with
  | nil =>
    intro m final h
    simp only [processLines, Except.ok.injEq] at h
    rw [← h]; rfl
  | cons line rest ih =>
    intro m final h
    simp only [processLines] at h
    unfold processLinesMembers processLineMembers
    cases hl : processLine past m.input_samples m.main_sample line with
    | error e => rw [hl] at h; simp at h
    | ok next =>
      rw [hl] at h
      simp only at h ⊢
      exact ih (Members.mk next m.input_samples) final h

/-- The loop on the data members stops with the failure of `processLines`. -/
theorem processLinesMembers_of_error (past : Nat → ℚ) :
    ∀ (script : List (List Char)) (m : Members) (e : Failure),
      (processLines past m.input_samples m.main_sample script).2 = Except.error e →
      (processLinesMembers past m script).2 = some e := by
  intro script
  induction script with
  | nil => intro m e h; simp [processLines] at h
  | cons line rest ih =>
    intro m e h
    simp only [processLines] at h
    unfold processLinesMembers processLineMembers
    cases hl : processLine past m.input_samples m.main_sample line with
    | error e2 =>
      rw [hl] at h
      simp only [Except.error.injEq] at h
      simp only [h]
    | ok next =>
      rw [hl] at h
      simp only at h ⊢
      exact ih (Members.mk next m.input_samples) e h

theorem processLineMembers_input_samples (past : Nat → ℚ) (m : Members) (line : List Char) :
    (processLineMembers past m line).1.input_samples = m.input_samples := by
  unfold processLineMembers
  cases processLine past m.input_samples m.main_sample line <;> rfl

theorem processLinesMembers_input_samples (past : Nat → ℚ) :
    ∀ (script : List (List Char)) (m : Members),
      (processLinesMembers past m script).1.input_samples = m.input_samples := by
  intro script
  induction script with
  | nil => intro m; rfl
  | cons line rest ih =>
    intro m
    have hl := processLineMembers_input_samples past m line
    unfold processLinesMembers
    cases hp : processLineMembers past m line with
    | mk next failure =>
      rw [hp] at hl
      cases failure with
      | none => simp only; rw [ih next]; exact hl
      | some e => exact hl

/-- C16: whatever the line is (a command, a skipped line or a line that throws), the
auxiliary buffers after the loop body are the auxiliary buffers before it, and so they
are after any script; only `main_sample` is replaced, by the buffer that `processLines`
computes. -/
theorem input_samples_never_modified (past : Nat → ℚ) (m : Members) :
    (∀ line : List Char, (processLineMembers past m line).1.input_samples = m.input_samples) ∧
    (∀ script : List (List Char),
      (processLinesMembers past m script).1.input_samples = m.input_samples) ∧
    (∀ (script : List (List Char)) (final : List ℚ),
      (processLines past m.input_samples m.main_sample script).2 = Except.ok final →
      processLinesMembers past m script = (Members.mk final m.input_samples, none)) ∧
    (∀ (script : List (List Char)) (e : Failure),
      (processLines past m.input_samples m.main_sample script).2 = Except.error e →
      (processLinesMembers past m script).2 = some e) := by
  exact ⟨processLineMembers_input_samples past m,
    fun script => processLinesMembers_input_samples past script m,
    fun script final h => processLinesMembers_of_ok past script m final h,
    fun script e h => processLinesMembers_of_error past script m e h⟩

/-- Worked instance for C16: the script `mix $2 0`, `mute 0 0.5` on two-frame buffers. -/
theorem input_samples_never_modified_witness :
    (processLinesMembers (fun _ => 0) (Members.mk [1, 1] [[0, 0]])
        [mixLine 2 0, muteHalfLine]).1.input_samples = [[0, 0]] :=
  (input_samples_never_modified (fun _ => 0) (Members.mk [1, 1] [[0, 0]])).2.1
    [mixLine 2 0, muteHalfLine]

/-- C17 (what the code does): with the program name as only argument `main` returns no
exit code: the test of the help flag dereferences `argv[1]`, the null pointer, before
`argc` is looked at.  With at least two arguments it behaves as claimed: exit code `0`
when the first argument starts with `-h`, exit code `1` when it does not and there are
fewer than five arguments. -/
theorem main_without_arguments (prog : List Char) :
    main [prog] = MainResult.undefinedBehaviour ∧ main [prog] ≠ MainResult.exit 1 ∧
    (∀ (argv : List (List Char)) (first : List Char), argv[1]? = some first →
      ¬ (first[0]? = some '-' ∧ first[1]? = some 'h') → argv.length < 5 →
      main argv = MainResult.exit 1) ∧
    (∀ (argv : List (List Char)) (first : List Char), argv[1]? = some first →
      first[0]? = some '-' → first[1]? = some 'h' → main argv = MainResult.exit 0) := by
  have h0 : main [prog] = MainResult.undefinedBehaviour := rfl
  refine ⟨h0, ?_, ?_, ?_⟩
  · rw [h0]; exact fun h => by cases h
  · intro argv first h1 hh hlen
    unfold main
    simp only [h1]
    rw [if_neg hh, if_pos hlen]
  · intro argv first h1 ha hb
    unfold main
    simp only [h1]
    rw [if_pos ⟨ha, hb⟩]

/-- Worked instance for C17: the arguments `p -c` give exit code `1`. -/
theorem main_without_arguments_witness :
    main [['p'], ['-', 'c']] = MainResult.exit 1 :=
  (main_without_arguments ['p']).2.2.1 [['p'], ['-', 'c']] ['-', 'c'] (by decide)
    (by decide) (by decide)

/-- C18 (what the code does): the loop runs on every frame below the quotient
`length b / factor`, not below its integer part; when the quotient is not an integer the
frame `⌊length b / factor⌋` is written although it equals the allocated length of
`outputBuffer`. -/
theorem speedUp_writes_past_end (past : Nat → ℚ) (b : List ℚ) (factor : ℚ) (hpos : 0 < factor)
    (hfrac : (⌊(b.length : ℚ) / factor⌋₊ : ℚ) < (b.length : ℚ) / factor) :
    (∀ j : Nat, j ∈ applySpeedUpWrites b factor ↔ (j : ℚ) < (b.length : ℚ) / factor) ∧
    ⌊(b.length : ℚ) / factor⌋₊ ∈ applySpeedUpWrites b factor ∧
    (applySpeedUp past b factor).length = ⌊(b.length : ℚ) / factor⌋₊ ∧
    ¬ (∀ j ∈ applySpeedUpWrites b factor, j < (applySpeedUp past b factor).length) := by
  have hmem := (mem_applySpeedUpWrites b factor hpos ⌊(b.length : ℚ) / factor⌋₊).mpr hfrac
  have hlen := applySpeedUp_length past b factor hpos
  refine ⟨mem_applySpeedUpWrites b factor hpos, hmem, hlen, ?_⟩
  intro h
  have := h _ hmem
  omega

/-- Worked instance for C18: five frames at factor `2` write the frames `0`, `1`, `2`
of a buffer of two frames. -/
theorem speedUp_writes_past_end_witness :
    (0 : ℚ) < 2 ∧
      ⌊((([1, 2, 3, 4, 5] : List ℚ).length : Nat) : ℚ) / 2⌋₊ = 2 ∧
      ⌊((([1, 2, 3, 4, 5] : List ℚ).length : Nat) : ℚ) / 2⌋₊ ∈
        applySpeedUpWrites [1, 2, 3, 4, 5] 2 ∧
      (applySpeedUp (fun _ => 0) [1, 2, 3, 4, 5] 2).length =
        ⌊((([1, 2, 3, 4, 5] : List ℚ).length : Nat) : ℚ) / 2⌋₊ := by
  have hfl : ⌊((([1, 2, 3, 4, 5] : List ℚ).length : Nat) : ℚ) / 2⌋₊ = 2 := by
    rw [Nat.floor_eq_iff (by norm_num)]
    norm_num
  have hfrac : (⌊((([1, 2, 3, 4, 5] : List ℚ).length : Nat) : ℚ) / 2⌋₊ : ℚ) <
      ((([1, 2, 3, 4, 5] : List ℚ).length : Nat) : ℚ) / 2 := by
    rw [hfl]; norm_num
  have h := speedUp_writes_past_end (fun _ => 0) [1, 2, 3, 4, 5] 2 (by norm_num) hfrac
  exact ⟨by norm_num, hfl, h.2.1, h.2.2.1⟩

/-- C19: processing the script `A` followed by `B` is processing `A` and then, when `A`
succeeds, processing `B` from the main buffer that `A` left; when `A` fails, the failure
of `A` is the outcome and no line of `B` is executed. -/
theorem script_concatenation (past : Nat → ℚ) (aux : List (List ℚ)) (main : List ℚ)
    (A B : List (List Char)) :
    processLines past aux main (A ++ B) =
        (match processLines past aux main A with
        | (n, Except.ok mid) =>
          (n + (processLines past aux mid B).1, (processLines past aux mid B).2)
        | (n, Except.error e) => (n, Except.error e)) ∧
    processConfigFile past aux main (some (A ++ B)) =
        (match processLines past aux main A with
        | (n, Except.ok mid) =>
          Outcome.mk (n + (processConfigFile past aux mid (some B)).executed)
            (processConfigFile past aux mid (some B)).saved
            (processConfigFile past aux mid (some B)).result
        | (n, Except.error e) => Outcome.mk n [] (Except.error e)) := by
  have h := processLines_append past aux A B main
  refine ⟨h, ?_⟩
  unfold processConfigFile
  simp only [h]
  cases hA : processLines past aux main A with
  | mk n res =>
    cases res with
    | error e => rfl
    | ok mid =>
      simp only
      cases hB : processLines past aux mid B with
      | mk k resB =>
        cases resB with
        | error e => rfl
        | ok final => rfl

/-! ## Sample range -/

theorem applyMute_range (b : List ℚ) (start end_ : Int)
    (hb : ∀ x ∈ b, -1 ≤ x ∧ x ≤ 1) : ∀ y ∈ applyMute b start end_, -1 ≤ y ∧ y ≤ 1 := by
  intro y hy
  obtain ⟨f, hf⟩ := List.mem_iff_getElem?.mp hy
  rw [applyMute_getElem?] at hf
  by_cases hc : frameOf start ≤ (f : Int) ∧ (f : Int) < frameOf end_
  · rw [if_pos hc] at hf
    cases hx : b[f]? with
    | none => rw [hx] at hf; simp at hf
    | some x =>
      rw [hx] at hf
      simp only [Option.map_some', Option.some.injEq] at hf
      rw [← hf]
      constructor <;> norm_num
  · rw [if_neg hc] at hf
    exact hb y (List.mem_iff_getElem?.mpr ⟨f, hf⟩)

theorem applyMix_range (past : Nat → ℚ) (p q : List ℚ) (offset : Int)
    (hlen : p.length ≤ q.length) (hp : ∀ x ∈ p, -1 ≤ x ∧ x ≤ 1)
    (hq : ∀ x ∈ q, -1 ≤ x ∧ x ≤ 1) : ∀ y ∈ applyMix past p q offset, -1 ≤ y ∧ y ≤ 1 := by
  intro y hy
  obtain ⟨f, hf⟩ := List.mem_iff_getElem?.mp hy
  rw [applyMix_getElem?] at hf
  cases hx : p[f]? with
  | none => rw [hx] at hf; simp at hf
  | some x =>
    rw [hx] at hf
    simp only [Option.map_some', Option.some.injEq] at hf
    have hxr := hp x (List.mem_iff_getElem?.mpr ⟨f, hx⟩)
    have hfp : f < p.length := by
      by_contra hcon
      rw [List.getElem?_eq_none (Nat.le_of_not_lt hcon)] at hx
      exact absurd hx (by simp)
    have hfq : f < q.length := Nat.lt_of_lt_of_le hfp hlen
    have hqf : q[f]? = some q[f] := List.getElem?_eq_getElem hfq
    have hr : readAt past q f = q[f] := readAt_of_getElem? hqf
    have hqr := hq q[f] (List.mem_iff_getElem?.mpr ⟨f, hqf⟩)
    rw [hr] at hf
    by_cases hc : frameOf offset ≤ (f : Int)
    · rw [if_pos hc] at hf
      rw [← hf]
      constructor <;> linarith [hxr.1, hxr.2, hqr.1, hqr.2]
    · rw [if_neg hc] at hf
      rw [← hf]
      constructor <;> linarith [hxr.1, hxr.2]

/-- A convex combination of two samples of `[-1, 1]` is in `[-1, 1]`. -/
theorem convex_range (fr x y : ℚ) (h0 : 0 ≤ fr) (h1 : fr ≤ 1) (hx : -1 ≤ x ∧ x ≤ 1)
    (hy : -1 ≤ y ∧ y ≤ 1) : -1 ≤ (1 - fr) * x + fr * y ∧ (1 - fr) * x + fr * y ≤ 1 := by
  have ha : 0 ≤ 1 - fr := by linarith
  constructor
  · nlinarith [mul_nonneg ha (by linarith [hx.1] : (0 : ℚ) ≤ x + 1),
      mul_nonneg h0 (by linarith [hy.1] : (0 : ℚ) ≤ y + 1)]
  · nlinarith [mul_nonneg ha (by linarith [hx.2] : (0 : ℚ) ≤ 1 - x),
      mul_nonneg h0 (by linarith [hy.2] : (0 : ℚ) ≤ 1 - y)]

/-- C20: the transforms keep samples in `[-1, 1]`: every sample of `applyMute b s e`;
every sample of `applyMix p q off` when `q` is at least as long as `p`; and every sample
of `applySpeedUp b factor`, `factor > 0`, whose two source frames lie inside `b`, the
weight `frac` of the interpolation being in `[0, 1)`. -/
theorem sample_range_preserved (past : Nat → ℚ) :
    (∀ (b : List ℚ) (s e : Int), (∀ x ∈ b, -1 ≤ x ∧ x ≤ 1) →
      ∀ y ∈ applyMute b s e, -1 ≤ y ∧ y ≤ 1) ∧
    (∀ (p q : List ℚ) (off : Int), p.length ≤ q.length →
      (∀ x ∈ p, -1 ≤ x ∧ x ≤ 1) → (∀ x ∈ q, -1 ≤ x ∧ x ≤ 1) →
      ∀ y ∈ applyMix past p q off, -1 ≤ y ∧ y ≤ 1) ∧
    (∀ (b : List ℚ) (factor : ℚ) (i : Nat), 0 < factor → (∀ x ∈ b, -1 ≤ x ∧ x ≤ 1) →
      i < ⌊(b.length : ℚ) / factor⌋₊ → ⌊(i : ℚ) * factor⌋₊ + 1 < b.length →
      (0 ≤ (i : ℚ) * factor - (⌊(i : ℚ) * factor⌋₊ : ℚ) ∧
        (i : ℚ) * factor - (⌊(i : ℚ) * factor⌋₊ : ℚ) < 1) ∧
      ∃ y, (applySpeedUp past b factor)[i]? = some y ∧ -1 ≤ y ∧ y ≤ 1) := by
  refine ⟨fun b s e hb => applyMute_range b s e hb,
    fun p q off hlen hp hq => applyMix_range past p q off hlen hp hq, ?_⟩
  intro b factor i hpos hb hi hin
  have ht : 0 ≤ (i : ℚ) * factor := mul_nonneg (Nat.cast_nonneg _) (le_of_lt hpos)
  have hf0 : 0 ≤ (i : ℚ) * factor - (⌊(i : ℚ) * factor⌋₊ : ℚ) := by
    linarith [Nat.floor_le ht]
  have hf1 : (i : ℚ) * factor - (⌊(i : ℚ) * factor⌋₊ : ℚ) < 1 := by
    linarith [Nat.lt_floor_add_one ((i : ℚ) * factor)]
  have hval := applySpeedUp_getElem?_of_lt past b factor hpos i hi
  rw [speedUpSample_of_inRange past b factor hpos i hin] at hval
  exact ⟨⟨hf0, hf1⟩, _, hval, convex_range _ _ _ hf0 (le_of_lt hf1)
    (hb _ (List.get_mem b _ _)) (hb _ (List.get_mem b _ _))⟩

/-- Worked instance for C20: muting, mixing and speeding up buffers of ones. -/
theorem sample_range_preserved_witness :
    (∀ y ∈ applyMute [1, -1] 0 1, -1 ≤ y ∧ y ≤ 1) ∧
      (∀ y ∈ applyMix (fun _ => 0) [1, -1] [1, 1] 0, -1 ≤ y ∧ y ≤ 1) := by
  have hb : ∀ x ∈ ([1, -1] : List ℚ), -1 ≤ x ∧ x ≤ 1 := by
    intro x hx
    simp only [List.mem_cons, List.mem_singleton, List.not_mem_nil, or_false] at hx
    rcases hx with rfl | rfl <;> constructor <;> norm_num
  have hq : ∀ x ∈ ([1, 1] : List ℚ), -1 ≤ x ∧ x ≤ 1 := by
    intro x hx
    simp only [List.mem_cons, List.mem_singleton, List.not_mem_nil, or_false] at hx
    rcases hx with rfl | rfl <;> constructor <;> norm_num
  exact ⟨(sample_range_preserved (fun _ => 0)).1 [1, -1] 0 1 hb,
    (sample_range_preserved (fun _ => 0)).2.1 [1, -1] [1, 1] 0 (by decide) hb hq⟩

/-! ## The call of `applySpeedUp` as a whole -/

theorem roundHalfEven_intCast (m : Int) : roundHalfEven (m : ℚ) = m := by
  unfold roundHalfEven
  rw [Int.floor_intCast, sub_self, if_pos (by norm_num)]

/-- A natural number below `2^53` is a `double`: rounding leaves it as it is. -/
theorem roundDouble_natCast (n : Nat) (hn : n < 2 ^ 53) : roundDouble (n : ℚ) = n := by
  unfold roundDouble
  by_cases h0 : (n : ℚ) = 0
  · rw [if_pos h0, h0]
  · rw [if_neg h0]
    have hnpos : 0 < n := Nat.pos_of_ne_zero (fun h => h0 (by rw [h]; simp))
    have habs : |(n : ℚ)| = n := abs_of_nonneg (Nat.cast_nonneg n)
    rw [habs, Int.log_natCast]
    have hlog : Nat.log 2 n < 53 := Nat.log_lt_of_lt_pow (by omega) hn
    obtain ⟨d, hd⟩ : ∃ d : Nat, Nat.log 2 n + d = 52 := ⟨52 - Nat.log 2 n, by omega⟩
    have hexp : ((Nat.log 2 n : Nat) : Int) - 52 = -(d : Int) := by omega
    rw [hexp, zpow_neg, zpow_natCast]
    have h2 : (2 : ℚ) ^ d ≠ 0 := pow_ne_zero _ (by norm_num)
    have hdiv : (n : ℚ) / ((2 : ℚ) ^ d)⁻¹ = (((n * 2 ^ d : Nat) : Int) : ℚ) := by
      rw [div_inv_eq_mul]
      push_cast
      ring
    rw [hdiv, roundHalfEven_intCast]
    push_cast
    field_simp

theorem speedUpLoopChecked_spec (past : Nat → ℚ) (b : List ℚ) (factor c : ℚ) :
    ∀ (fuel frame : Nat) (out : List ℚ),
      (∀ j : Nat, frame ≤ j → (j : ℚ) < c → j < out.length) → out.length < frame + fuel →
      ∃ r, speedUpLoopChecked past b factor c fuel frame out = Except.ok r ∧
        r.length = out.length ∧
        ∀ j : Nat, r[j]? =
          if frame ≤ j ∧ (j : ℚ) < c then (out[j]?).map (fun _ => speedUpSample past b factor j)
          else out[j]? := by
  intro fuel
  induction fuel with
  | zero =>
    intro frame out hin hfuel
    refine ⟨out, rfl, rfl, ?_⟩
    intro j
    have hc : ¬ (frame ≤ j ∧ (j : ℚ) < c) := by
      intro h
      have := hin j h.1 h.2
      omega
    rw [if_neg hc]
  | succ fuel ih =>
    intro frame out hin hfuel
    unfold speedUpLoopChecked
    by_cases hc : (frame : ℚ) < c
    · have hlt : frame < out.length := hin frame (le_refl _) hc
      rw [if_pos hc, if_pos hlt]
      obtain ⟨r, hr, hlen, hget⟩ := ih (frame + 1)
        (out.set frame (speedUpSample past b factor frame))
        (by
          intro j hj hjc
          rw [List.length_set]
          exact hin j (by omega) hjc)
        (by rw [List.length_set]; omega)
      refine ⟨r, hr, by rw [hlen, List.length_set], ?_⟩
      intro j
      rw [hget j]
      by_cases hjf : j = frame
      · subst hjf
        have h1 : ¬ (j + 1 ≤ j ∧ (j : ℚ) < c) := by intro h; omega
        rw [if_neg h1, if_pos ⟨le_refl _, hc⟩]
        simp [hlt, List.getElem?_eq_getElem hlt]
      · rw [List.getElem?_set_ne (Ne.symm hjf)]
        by_cases hq : (j : ℚ) < c
        · by_cases hr2 : frame ≤ j
          · rw [if_pos ⟨by omega, hq⟩, if_pos ⟨hr2, hq⟩]
          · rw [if_neg (fun h => hr2 (by omega)), if_neg (fun h => hr2 h.1)]
        · rw [if_neg (fun h => hq h.2), if_neg (fun h => hq h.2)]
    · rw [if_neg hc]
      refine ⟨out, rfl, rfl, ?_⟩
      intro j
      have h2 : ¬ (frame ≤ j ∧ (j : ℚ) < c) := by
        intro h
        apply hc
        have : (frame : ℚ) ≤ (j : ℚ) := by exact_mod_cast h.1
        exact lt_of_le_of_lt this h.2
      rw [if_neg h2]

/-- When the `double` quotient is a natural number `n` below `2^31`, the call returns a
buffer of `n` frames, each holding its interpolated sample. -/
theorem applySpeedUpChecked_of_quotient (past : Nat → ℚ) (b : List ℚ) (factor : ℚ)
    (hpos : 0 < factor) (n : Nat) (hn : n < 2147483648)
    (hq : speedUpQuotient b.length factor = n) :
    ∃ r, applySpeedUpChecked past b factor = Except.ok r ∧ r.length = n ∧
      ∀ j : Nat, j < n → r[j]? = some (speedUpSample past b factor j) := by
  have hcount : truncToInt (n : ℚ) = (n : Int) := truncToInt_natCast n
  obtain ⟨r, hr, hlen, hget⟩ := speedUpLoopChecked_spec past b factor (n : ℚ) (n + 1) 0
    (List.replicate n 0)
    (by
      intro j _ hj
      rw [List.length_replicate]
      exact_mod_cast hj)
    (by rw [List.length_replicate]; omega)
  refine ⟨r, ?_, by rw [hlen, List.length_replicate], ?_⟩
  · unfold applySpeedUpChecked
    rw [if_neg (ne_of_gt hpos)]
    simp only [hq, hcount, Int.toNat_natCast]
    rw [if_neg (by omega), if_neg (by omega)]
    exact hr
  · intro j hj
    rw [hget j, if_pos ⟨Nat.zero_le _, by exact_mod_cast hj⟩]
    simp [List.getElem?_replicate, hj]

theorem roundDouble_one_half : roundDouble (1 / 2) = 1 / 2 := by
  have habs : |(1 / 2 : ℚ)| = ((2 : Nat) : ℚ) ^ (-1 : Int) := by
    rw [abs_of_pos (by norm_num)]
    norm_num
  have hlog : Int.log 2 |(1 / 2 : ℚ)| = -1 := by
    rw [habs, Int.log_zpow (by decide)]
  have hm : (1 / 2 : ℚ) / (2 : ℚ) ^ ((-1 : Int) - 52) = ((4503599627370496 : Int) : ℚ) := by
    norm_num [zpow_neg]
  unfold roundDouble
  rw [if_neg (by norm_num), hlog, hm, roundHalfEven_intCast]
  norm_num [zpow_neg]

/-- Five frames at factor `10`: the vector is allocated with `0` elements and the loop
writes `outputBuffer[0]`. -/
theorem applySpeedUpChecked_five_at_ten (past : Nat → ℚ) :
    applySpeedUpChecked past [1, 2, 3, 4, 5] 10 = Except.error Failure.undefinedBehaviour := by
  have hq : speedUpQuotient ([1, 2, 3, 4, 5] : List ℚ).length 10 = 1 / 2 := by
    unfold speedUpQuotient
    have : ((([1, 2, 3, 4, 5] : List ℚ).length : Nat) : ℚ) / 10 = 1 / 2 := by norm_num
    rw [this, roundDouble_one_half]
  have hcount : truncToInt (1 / 2 : ℚ) = 0 := by
    rw [truncToInt_of_nonneg (by norm_num), Int.floor_eq_zero_iff]
    constructor <;> norm_num
  unfold applySpeedUpChecked
  rw [if_neg (by norm_num)]
  simp only [hq, hcount]
  rw [if_neg (by omega), if_neg (by omega)]
  simp only [Int.toNat_zero, Nat.zero_add, List.replicate_zero, speedUpLoopChecked,
    List.length_nil, Nat.lt_irrefl, if_false]
  rw [if_pos (by norm_num)]

/-- The script line `speed_up 10`. -/
theorem processLine_speed_up_ten (past : Nat → ℚ) (aux : List (List ℚ)) :
    processLine past aux [1, 2, 3, 4, 5]
        ['s', 'p', 'e', 'e', 'd', '_', 'u', 'p', ' ', '1', '0'] =
      Except.error Failure.undefinedBehaviour := by
  have hskip : skipped ['s', 'p', 'e', 'e', 'd', '_', 'u', 'p', ' ', '1', '0'] = false := by
    decide
  have h1 : readString (IStream.ofLine ['s', 'p', 'e', 'e', 'd', '_', 'u', 'p', ' ', '1', '0']) =
      (speedUpCommand, IStream.mk [' ', '1', '0'] false false) := by decide
  have hs : sentry (IStream.mk [' ', '1', '0'] false false) =
      (true, IStream.mk ['1', '0'] false false) := by decide
  have hsign : readSign ['1', '0'] = (false, ['1', '0']) := by decide
  have htake : List.takeWhile isdigit ['1', '0'] = ['1', '0'] := by decide
  have hdrop : List.dropWhile isdigit ['1', '0'] = [] := by decide
  have hval : digitsVal ['1', '0'] = 10 := by decide
  have h2 : (readDouble (IStream.mk [' ', '1', '0'] false false)).1 = some 10 := by
    unfold readDouble
    rw [hs]
    simp only [hsign, htake, hdrop, hval, List.head?_nil, List.isEmpty_cons, List.isEmpty_nil,
      readExponent]
    have h10 : roundDouble ((((10 : Nat) : ℚ) + ((digitsVal [] : Nat) : ℚ) / 10 ^ 0)) = 10 := by
      have : (((10 : Nat) : ℚ) + ((digitsVal [] : Nat) : ℚ) / 10 ^ 0) = ((10 : Nat) : ℚ) := by
        simp [digitsVal]
      rw [this, roundDouble_natCast 10 (by norm_num)]
      norm_num
    simpa using h10
  unfold processLine
  rw [hskip]
  simp only [Bool.false_eq_true, if_false, h1]
  rw [if_neg (by decide), if_neg (by decide), if_pos trivial]
  unfold runSpeedUp
  rw [h2]
  exact applySpeedUpChecked_five_at_ten past

theorem roundHalfEven_of_lt_half (m : ℚ) (f : Int) (h1 : (f : ℚ) ≤ m)
    (h2 : m < (f : ℚ) + 1 / 2) : roundHalfEven m = f := by
  have hf : ⌊m⌋ = f := by
    rw [Int.floor_eq_iff]
    exact ⟨h1, by linarith⟩
  unfold roundHalfEven
  rw [hf, if_pos (by linarith)]

theorem roundHalfEven_of_gt_half (m : ℚ) (f : Int) (h1 : (f : ℚ) + 1 / 2 < m)
    (h2 : m < (f : ℚ) + 1) : roundHalfEven m = f + 1 := by
  have hf : ⌊m⌋ = f := by
    rw [Int.floor_eq_iff]
    exact ⟨by linarith, h2⟩
  unfold roundHalfEven
  rw [hf, if_neg (by linarith), if_pos (by linarith)]

/-- The rounding of a positive number of binary exponent `e`. -/
theorem roundDouble_of_exponent (x : ℚ) (e : Int) (h1 : (2 : ℚ) ^ e ≤ x)
    (h2 : x < (2 : ℚ) ^ (e + 1)) :
    roundDouble x = (roundHalfEven (x / (2 : ℚ) ^ (e - 52)) : ℚ) * (2 : ℚ) ^ (e - 52) := by
  have hx : 0 < x := lt_of_lt_of_le (zpow_pos (by norm_num) e) h1
  have hlog : Int.log 2 |x| = e := by
    rw [abs_of_pos hx]
    apply le_antisymm
    · have := (Int.lt_zpow_iff_log_lt (b := 2) (by decide) hx (x := e + 1)).mp
        (by simpa using h2)
      omega
    · exact (Int.zpow_le_iff_le_log (b := 2) (by decide) hx).mp (by simpa using h1)
  unfold roundDouble
  rw [if_neg (ne_of_gt hx), hlog]

/-- The `double` nearest to `0.1`. -/
theorem roundDouble_one_tenth :
    roundDouble (1 / 10) = 3602879701896397 / 36028797018963968 := by
  rw [roundDouble_of_exponent (1 / 10) (-4) (by norm_num [zpow_neg]) (by norm_num [zpow_neg]),
    roundHalfEven_of_gt_half _ 7205759403792793 (by norm_num [zpow_neg])
      (by norm_num [zpow_neg])]
  norm_num [zpow_neg]

/-- Three frames at the `double` nearest to `0.1`: the exact quotient is below `30`, with
integer part `29`, but the `double` quotient of the code is `30`, so the call returns a
buffer of `30` frames. -/
theorem applySpeedUpChecked_three_frames_at_tenth (past : Nat → ℚ) :
    ⌊((([1, 2, 3] : List ℚ).length : Nat) : ℚ) / roundDouble (1 / 10)⌋₊ = 29 ∧
      speedUpQuotient ([1, 2, 3] : List ℚ).length (roundDouble (1 / 10)) = 30 ∧
      ∃ r, applySpeedUpChecked past [1, 2, 3] (roundDouble (1 / 10)) = Except.ok r ∧
        r.length = 30 := by
  have hq : speedUpQuotient ([1, 2, 3] : List ℚ).length (roundDouble (1 / 10)) =
      ((30 : Nat) : ℚ) := by
    unfold speedUpQuotient
    rw [roundDouble_one_tenth,
      roundDouble_of_exponent _ 4 (by norm_num) (by norm_num),
      roundHalfEven_of_gt_half _ 8444249301319679 (by norm_num [zpow_neg])
        (by norm_num [zpow_neg])]
    norm_num [zpow_neg]
  have hpos : (0 : ℚ) < roundDouble (1 / 10) := by rw [roundDouble_one_tenth]; norm_num
  refine ⟨?_, by rw [hq]; norm_num, ?_⟩
  · rw [roundDouble_one_tenth, Nat.floor_eq_iff (by norm_num)]
    norm_num
  · obtain ⟨r, hr, hlen, _⟩ := applySpeedUpChecked_of_quotient past [1, 2, 3]
      (roundDouble (1 / 10)) hpos 30 (by decide) hq
    exact ⟨r, hr, hlen⟩

end SoundProcessor
